import Mathlib

/-!
# Verification of the vault-recall TF-IDF indexing and resurfacing engine

Shallow embedding of the core of the repository:

* `src/tfidf.ts` (tokenizer, TF, IDF, TF-IDF, cosine similarity),
* `src/embeddings/engine.ts` (the `EmbeddingEngine` corpus index),
* `src/resurfacer/scoring.ts` (scoring functions),
* `src/resurfacer/resurfacer.ts` (`SmartResurfacer` daily digest).

JavaScript `Map`s are embedded as association lists in insertion order:
`set` updates an existing key in place or appends a new one, `delete`
removes the entry, iteration follows the list order — exactly the
observable semantics of a JS `Map`.  JS numbers are embedded as `ℚ` where
the code computes only ratios of integers (term frequencies, snapshot
values) and as `ℝ` where `Math.log`, `Math.exp` or `Math.sqrt` are
involved (IDF, TF-IDF, cosine similarity, scoring).  File-system reads,
markdown preprocessing (`getIndexableContent`) and UI notices are outside
the indexing core: the engine operations receive the text handed to
`tokenize` directly, and file metadata (path, mtime, backlink count) is
passed in as values.
-/

namespace VaultRecall

/-! ## JS `Map` as an association list -/

/-- `Map.get`: first (unique) binding of the key, if any. -/
def mapGet {β : Type} (m : List (String × β)) (k : String) : Option β :=
  match m with
  | [] => none
  | (k0, v) :: rest => if k0 = k then some v else mapGet rest k

/-- `Map.set`: update an existing key in place, else append at the end. -/
def mapSet {β : Type} (m : List (String × β)) (k : String) (v : β) :
    List (String × β) :=
  match m with
  | [] => [(k, v)]
  | (k0, v0) :: rest =>
    if k0 = k then (k, v) :: rest else (k0, v0) :: mapSet rest k v

/-- `Map.delete`: remove the binding of the key. -/
def mapDelete {β : Type} (m : List (String × β)) (k : String) :
    List (String × β) :=
  match m with
  | [] => []
  | (k0, v0) :: rest =>
    if k0 = k then rest else (k0, v0) :: mapDelete rest k

/-! ## Tokenizer (`src/tfidf.ts`) -/

/-- The fixed stopword set `STOP_WORDS` of `src/tfidf.ts`. -/
def STOP_WORDS : List String :=
  ["a", "an", "the", "and", "or", "but", "in", "on", "at", "to", "for",
   "of", "with", "by", "from", "is", "it", "its", "this", "that", "are",
   "was", "were", "be", "been", "being", "have", "has", "had", "do", "does",
   "did", "will", "would", "could", "should", "may", "might", "can", "shall",
   "not", "no", "nor", "so", "if", "then", "than", "too", "very", "just",
   "about", "above", "after", "again", "all", "also", "am", "any", "as",
   "because", "before", "between", "both", "each", "few", "get", "got",
   "he", "her", "here", "him", "his", "how", "i", "into", "like", "make",
   "me", "more", "most", "my", "new", "now", "only", "other", "our", "out",
   "over", "own", "same", "she", "some", "such", "up", "us", "we", "what",
   "when", "where", "which", "while", "who", "whom", "why", "you", "your",
   "there", "they", "them", "their", "these", "those", "through", "under",
   "until", "well", "much", "many", "still", "even", "back", "down"]

/-- ASCII whitespace, the separator class of `split(/\s+/)`. -/
def isSpaceChar (c : Char) : Bool :=
  c.toNat = 32 || c.toNat = 9 || c.toNat = 13 || c.toNat = 10

/-- A character kept by the normalisation passes: after `toLowerCase()`,
`replace(/[^\w\s]/g, ' ')` and `replace(/\d+/g, ' ')` the survivors are
exactly `[a-z_]` (uppercase no longer occurs, digits are gone). -/
def keepChar (c : Char) : Bool :=
  (97 ≤ c.toNat && c.toNat ≤ 122) || c.toNat = 95

/-- Per-character effect of
`text.toLowerCase().replace(/[^\w\s]/g, ' ').replace(/\d+/g, ' ')`
(ASCII model of `toLowerCase`; replacing a digit run by one space or each
digit by a space is indistinguishable after splitting on `/\s+/`). -/
def normChar (c : Char) : Char :=
  let l := Char.toLower c
  if isSpaceChar l then l else if keepChar l then l else ' '

/-- Split into maximal runs of non-whitespace characters, accumulator form.
The empty boundary tokens a JS `split(/\s+/)` can produce are dropped here;
the `length > 2` filter of `tokenize` discards them in the source too. -/
def splitAux : List Char → List Char → List (List Char)
  | [], acc => if acc.isEmpty then [] else [acc.reverse]
  | c :: cs, acc =>
    if isSpaceChar c then
      (if acc.isEmpty then splitAux cs [] else acc.reverse :: splitAux cs [])
    else splitAux cs (c :: acc)

/-- `split(/\s+/)` on a normalised character list. -/
def splitTokens (cs : List Char) : List (List Char) := splitAux cs []

/-- The ordered suffix list of `simpleStem`. -/
def suffixList : List String :=
  ["tion", "sion", "ment", "ness", "ible", "able", "ful", "less", "ous",
   "ive", "ing", "ies", "ied", "ers", "est", "ity", "aly", "ely", "ize",
   "ise", "ify", "ate", "ent", "ant", "ary", "ery", "ory", "ly", "ed",
   "er", "es", "al", "en"]

/-- `simpleStem` on the character list of a word. -/
def stemL (w : List Char) : List Char :=
  if w.length ≤ 4 then w
  else
    match (suffixList.map String.data).find?
        (fun suf => suf.isSuffixOf w && decide (3 ≤ w.length - suf.length)) with
    | some suf => w.take (w.length - suf.length)
    | none =>
      if ['s'].isSuffixOf w && !(['s', 's'].isSuffixOf w)
          && decide (3 < w.length) then
        w.take (w.length - 1)
      else w

/-- `simpleStem`: basic suffix-stripping stemmer. -/
def simpleStem (word : String) : String := String.mk (stemL word.data)

/-- `tokenize(text)`: normalise, split, drop short tokens and stopwords,
stem. -/
def tokenize (text : String) : List String :=
  let norm := text.data.map normChar
  let raw := (splitTokens norm).map String.mk
  (raw.filter
    (fun tok => decide (2 < tok.length) && !(STOP_WORDS.contains tok))).map
    simpleStem

/-- Join tokens with single spaces (used to state the idempotence claim:
"tokenizing the joined output again"). -/
def joinSpace : List String → String
  | [] => ""
  | [t] => t
  | t :: ts => t ++ " " ++ joinSpace ts

/-- `joinSpace` on raw character lists (proof companion of `joinSpace`). -/
def joinL : List (List Char) → List Char
  | [] => []
  | [t] => t
  | t :: ts => t ++ ' ' :: joinL ts

/-! ## Vector math (`src/tfidf.ts`) -/

/-- `computeTF(tokens)`: raw counts normalised by total token count. -/
def computeTF (tokens : List String) : List (String × ℚ) :=
  if tokens.length = 0 then []
  else
    let counts := tokens.foldl
      (fun m tok => mapSet m tok ((mapGet m tok).getD 0 + 1))
      ([] : List (String × ℚ))
    counts.map (fun tv => (tv.1, tv.2 / (tokens.length : ℚ)))

/-- The document-frequency accumulation loop of `computeIDF`. -/
def dfFold (docs : List (List (String × ℚ))) : List (String × ℕ) :=
  docs.foldl
    (fun df doc =>
      doc.foldl
        (fun dfAcc tv => mapSet dfAcc tv.1 ((mapGet dfAcc tv.1).getD 0 + 1))
        df)
    []

/-- `computeIDF(documents)`: `log(N / (1 + df))` per term. -/
noncomputable def computeIDF (docs : List (List (String × ℚ))) :
    List (String × ℝ) :=
  if docs.length = 0 then []
  else
    (dfFold docs).map
      (fun tf => (tf.1, Real.log ((docs.length : ℝ) / (1 + (tf.2 : ℝ)))))

/-- `computeTFIDF(tf, idf)`: keep `tf * idf` entries with strictly positive
score. -/
noncomputable def computeTFIDF (tf : List (String × ℚ))
    (idf : List (String × ℝ)) : List (String × ℝ) :=
  tf.foldl
    (fun acc tv =>
      let idfValue := (mapGet idf tv.1).getD 0
      let score := (tv.2 : ℝ) * idfValue
      if 0 < score then mapSet acc tv.1 score else acc)
    []

/-- The dot-product accumulation of `cosineSimilarity`: shared terms only. -/
noncomputable def dotProduct (a b : List (String × ℝ)) : ℝ :=
  (a.map (fun tv =>
    match mapGet b tv.1 with
    | some w => tv.2 * w
    | none => 0)).sum

/-- The squared-norm accumulation of `cosineSimilarity`. -/
noncomputable def normSq (a : List (String × ℝ)) : ℝ :=
  (a.map (fun tv => tv.2 * tv.2)).sum

/-- `cosineSimilarity(a, b)` with the explicit zero-denominator guard. -/
noncomputable def cosineSimilarity (a b : List (String × ℝ)) : ℝ :=
  let denom := Real.sqrt (normSq a) * Real.sqrt (normSq b)
  if denom = 0 then 0 else dotProduct a b / denom

/-! ## The index engine (`src/embeddings/engine.ts`) -/

/-- The mutable state of an `EmbeddingEngine`. -/
structure EngineState where
  tfMaps : List (String × List (String × ℚ))
  idf : List (String × ℝ)
  tfidfVectors : List (String × List (String × ℝ))
  indexReady : Bool

/-- A freshly constructed engine: empty maps, not ready. -/
def initState : EngineState := ⟨[], [], [], false⟩

/-- `indexVault()` over the documents handed to it as `(path, text)` pairs
(the text is what `getIndexableContent` produces and `tokenize` receives).
Zero documents: early return, state untouched. -/
noncomputable def indexVault (docs : List (String × String))
    (s : EngineState) : EngineState :=
  if docs.length = 0 then s
  else
    let tfm := docs.foldl
      (fun m d => mapSet m d.1 (computeTF (tokenize d.2))) []
    let idf := computeIDF (tfm.map Prod.snd)
    let tfidf := tfm.foldl
      (fun acc p => mapSet acc p.1 (computeTFIDF p.2 idf)) []
    ⟨tfm, idf, tfidf, true⟩

/-- `indexNote(file)`: single-document upsert; no-op unless ready. -/
noncomputable def indexNote (path text : String) (s : EngineState) :
    EngineState :=
  if s.indexReady = false then s
  else
    let tf := computeTF (tokenize text)
    let tfm := mapSet s.tfMaps path tf
    let idf := computeIDF (tfm.map Prod.snd)
    ⟨tfm, idf, mapSet s.tfidfVectors path (computeTFIDF tf idf),
      s.indexReady⟩

/-- `removeNote(path)`: unconditional deletion of TF and TF-IDF entries. -/
def removeNote (path : String) (s : EngineState) : EngineState :=
  { s with
    tfMaps := mapDelete s.tfMaps path
    tfidfVectors := mapDelete s.tfidfVectors path }

/-- The metadata of a vault file the resurfacer consumes: identifier,
last-modified timestamp (ms) and backlink count (`getBacklinkCount`). -/
structure FileMeta where
  path : String
  mtime : ℝ
  backlinks : ℕ

/-- `findSimilar(file, topK)`.  `files` plays the role of the vault for the
final `getAbstractFileByPath` resolution (paths that do not resolve to a
markdown file are dropped, as in the source). -/
noncomputable def findSimilar (files : List FileMeta) (s : EngineState)
    (path : String) (topK : ℕ) : List (FileMeta × ℝ) :=
  if s.indexReady = false then []
  else
    match mapGet s.tfidfVectors path with
    | none => []
    | some sourceVector =>
      let scores := s.tfidfVectors.filterMap (fun pv =>
        if pv.1 = path then none
        else
          let sim := cosineSimilarity sourceVector pv.2
          if (0.01 : ℝ) < sim then some (pv.1, sim) else none)
      let sorted :=
        List.insertionSort (fun x y : String × ℝ => y.2 ≤ x.2) scores
      (sorted.take topK).filterMap (fun ps =>
        (files.find? (fun f => decide (f.path = ps.1))).map
          (fun f => (f, ps.2)))

/-- What `loadIndex` finds on disk: no file, unparseable JSON, or parsed
JSON, the latter reduced to the two fields the restore path reads
(`none` models a missing or non-object field, on which
`Object.entries(...)` throws). -/
inductive SnapshotInput where
  | absent : SnapshotInput
  | unparseable : SnapshotInput
  | parsed (tfMapsField : Option (List (String × List (String × ℚ))))
      (idfField : Option (List (String × ℚ))) : SnapshotInput

/-- `loadIndex()`: returns the success flag and the state after the call.
The mutation order of the source is kept: `tfMaps.clear()` runs before
`Object.entries(data.tfMaps)` is evaluated, so a parse-shaped failure
leaves a partially mutated state behind the `false` return. -/
noncomputable def loadIndex (s : EngineState) (input : SnapshotInput) :
    Bool × EngineState :=
  match input with
  | .absent => (false, s)
  | .unparseable => (false, s)
  | .parsed tfMapsField idfField =>
    let s1 := { s with tfMaps := [] }
    match tfMapsField with
    | none => (false, s1)
    | some entries =>
      let s2 := { s1 with
        tfMaps := entries.foldl
          (fun m e =>
            mapSet m e.1 (e.2.foldl (fun tm kv => mapSet tm kv.1 kv.2) []))
          [] }
      match idfField with
      | none => (false, s2)
      | some idfEntries =>
        let s3 := { s2 with
          idf := idfEntries.foldl
            (fun (m : List (String × ℝ)) (kv : String × ℚ) =>
              mapSet m kv.1 ((kv.2 : ℝ))) [] }
        let s4 := { s3 with
          tfidfVectors := s3.tfMaps.foldl
            (fun (acc : List (String × List (String × ℝ)))
                (p : String × List (String × ℚ)) =>
              mapSet acc p.1 (computeTFIDF p.2 s3.idf)) [] }
        (true, { s4 with indexReady := true })

/-- The index operations a caller can perform on one engine. -/
inductive Op where
  | build (docs : List (String × String)) : Op
  | upsert (path text : String) : Op
  | remove (path : String) : Op
  | restore (input : SnapshotInput) : Op

/-- One operation applied to the engine state. -/
noncomputable def step (s : EngineState) (op : Op) : EngineState :=
  match op with
  | .build docs => indexVault docs s
  | .upsert p t => indexNote p t s
  | .remove p => removeNote p s
  | .restore inp => (loadIndex s inp).2

/-- A sequence of operations applied in order. -/
noncomputable def runOps (s : EngineState) (ops : List Op) : EngineState :=
  ops.foldl step s

/-! ## Scoring (`src/resurfacer/scoring.ts`) -/

/-- `relevanceScore(similarity)`: clamp to `[0, 1]`. -/
noncomputable def relevanceScore (similarity : ℝ) : ℝ :=
  min (max similarity 0) 1

/-- `timeDecayScore(lastModifiedMs)`: `1 - e^(-days/20)`; `Date.now()` is
passed in as `now`. -/
noncomputable def timeDecayScore (now lastModifiedMs : ℝ) : ℝ :=
  let daysSinceModified := (now - lastModifiedMs) / (1000 * 60 * 60 * 24)
  1 - Real.exp (-daysSinceModified / 20)

/-- `orphanBoost(backlinkCount)`: the step function rewarding isolation. -/
noncomputable def orphanBoost (backlinkCount : ℕ) : ℝ :=
  if backlinkCount = 0 then 1
  else if backlinkCount = 1 then 0.5
  else if backlinkCount ≤ 3 then 0.2
  else 0

/-- `compositeScore` with explicit weights. -/
noncomputable def compositeScoreW (relevance decay orphan wr wd wo : ℝ) :
    ℝ :=
  relevance * wr + decay * wd + orphan * wo

/-- `compositeScore` at its default weights `{0.5, 0.35, 0.15}`. -/
noncomputable def compositeScore (relevance decay orphan : ℝ) : ℝ :=
  compositeScoreW relevance decay orphan 0.5 0.35 0.15

/-! ## The resurfacer (`src/resurfacer/resurfacer.ts`) -/

/-- A daily-digest entry (`ResurfacedNote`); the preview `snippet`, a pure
I/O affair, is not modeled. -/
structure ResurfacedNote where
  path : String
  score : ℝ
  reason : String
  daysSinceModified : ℤ

/-- JavaScript `Math.round`: floor of `x + 1/2`. -/
noncomputable def jsRound (x : ℝ) : ℤ := ⌊x + 1 / 2⌋

/-- `getDaysSinceModified(file)` relative to the modeled `Date.now()`. -/
noncomputable def daysSince (now : ℝ) (f : FileMeta) : ℝ :=
  (now - f.mtime) / (1000 * 60 * 60 * 24)

/-- `getRecentlyModifiedFiles(withinDays)`: filter by cutoff, sort by
mtime descending, cap at 10. -/
noncomputable def getRecentlyModifiedFiles (now : ℝ)
    (files : List FileMeta) (withinDays : ℝ) : List FileMeta :=
  let cutoff := now - withinDays * 24 * 60 * 60 * 1000
  ((files.filter (fun f => decide (cutoff < f.mtime))).insertionSort
    (fun a b : FileMeta => b.mtime ≤ a.mtime)).take 10

/-- `getForgottenNotes(count)`: the no-recent-anchors fallback ranking. -/
noncomputable def getForgottenNotes (now : ℝ) (files : List FileMeta)
    (minDaysOld : ℝ) (count : ℕ) : List ResurfacedNote :=
  let scored := files.filterMap (fun f =>
    let ds := daysSince now f
    if ds < minDaysOld then none
    else
      let decay := timeDecayScore now f.mtime
      let orphan := orphanBoost f.backlinks
      let score := compositeScore 0.3 decay orphan
      let reason :=
        if (0.5 : ℝ) < orphan then "Unlinked note — consider connecting it"
        else "Not modified in " ++ toString (jsRound ds) ++ " days"
      some ⟨f.path, score, reason, jsRound ds⟩)
  ((scored.insertionSort
    (fun x y : ResurfacedNote => y.score ≤ x.score)).take count)

/-- The reason chain of the anchor-based digest path. -/
noncomputable def anchorReason (rel decay orphan : ℝ) : String :=
  if (0.3 : ℝ) < rel then "Related to your recent work"
  else if (0.8 : ℝ) < decay then "Written long ago, might be worth revisiting"
  else if (0.5 : ℝ) < orphan then "Unlinked note — consider connecting it"
  else "Forgotten note worth revisiting"

/-- `getDailyDigest(count)`. -/
noncomputable def getDailyDigest (now : ℝ) (files : List FileMeta)
    (engine : EngineState) (minDaysOld : ℝ) (count : ℕ) :
    List ResurfacedNote :=
  if engine.indexReady = false then []
  else
    let recentFiles := getRecentlyModifiedFiles now files 3
    if recentFiles.isEmpty then getForgottenNotes now files minDaysOld count
    else
      let candidateMap := recentFiles.foldl
        (fun cm recentFile =>
          (findSimilar files engine recentFile.path 20).foldl
            (fun cm2 sf =>
              if daysSince now sf.1 < minDaysOld then cm2
              else
                match mapGet cm2 sf.1.path with
                | none => mapSet cm2 sf.1.path (sf.1, sf.2)
                | some existing =>
                  if existing.2 < sf.2 then mapSet cm2 sf.1.path (sf.1, sf.2)
                  else cm2)
            cm)
        []
      let scored := candidateMap.map (fun kv =>
        let f := kv.2.1
        let rel := relevanceScore kv.2.2
        let decay := timeDecayScore now f.mtime
        let orphan := orphanBoost f.backlinks
        (⟨f.path, compositeScore rel decay orphan,
          anchorReason rel decay orphan,
          jsRound (daysSince now f)⟩ : ResurfacedNote))
      ((scored.insertionSort
        (fun x y : ResurfacedNote => y.score ≤ x.score)).take count)

/-! ## Predicates used by the claims -/

/-- The value of a sparse vector at a term, absent terms reading `0`. -/
noncomputable def vecVal (a : List (String × ℝ)) (t : String) : ℝ :=
  ((mapGet a t).getD 0 : ℝ)

/-- Every document id present in the TF-vector set has a TF-IDF vector. -/
def DomInv (s : EngineState) : Prop :=
  ∀ p, (mapGet s.tfMaps p).isSome = true →
    (mapGet s.tfidfVectors p).isSome = true

/-- Well-formedness a JS `Map` guarantees by construction: no duplicate
keys in the engine's maps. -/
def EngineWF (s : EngineState) : Prop :=
  (s.tfMaps.map Prod.fst).Nodup ∧ (s.tfidfVectors.map Prod.fst).Nodup

/-- The IDF table equals the from-scratch IDF of the current TF set. -/
def idfFresh (s : EngineState) : Prop :=
  s.idf = computeIDF (s.tfMaps.map Prod.snd)

/-- A restore that does not fail halfway through mutating the TF maps:
anything except a parsed snapshot that has a `tfMaps` field but lacks a
usable `idf` field. -/
def restoreSafe : Op → Prop
  | .restore (.parsed (some _) none) => False
  | _ => True

/-! ## Association-list lemmas -/

theorem mapGet_mapSet_self {β : Type} (m : List (String × β)) (k : String)
    (v : β) : mapGet (mapSet m k v) k = some v := by
  induction m with
  | nil => simp [mapSet, mapGet]
  | cons hd tl ih =>
    obtain ⟨k0, v0⟩ := hd
    by_cases h : k0 = k
    · simp [mapSet, mapGet, h]
    · simp [mapSet, mapGet, h, ih]

theorem mapGet_mapSet_ne {β : Type} (m : List (String × β)) (k q : String)
    (v : β) (h : k ≠ q) : mapGet (mapSet m k v) q = mapGet m q := by
  induction m with
  | nil => simp [mapSet, mapGet, h]
  | cons hd tl ih =>
    obtain ⟨k0, v0⟩ := hd
    by_cases h0 : k0 = k
    · subst h0
      simp [mapSet, mapGet, h]
    · simp [mapSet, mapGet, h0, ih]

theorem mapGet_mapDelete_ne {β : Type} (m : List (String × β))
    (k q : String) (h : k ≠ q) : mapGet (mapDelete m k) q = mapGet m q := by
  induction m with
  | nil => simp [mapDelete]
  | cons hd tl ih =>
    obtain ⟨k0, v0⟩ := hd
    by_cases h0 : k0 = k
    · subst h0
      simp [mapDelete, mapGet, h]
    · simp [mapDelete, mapGet, h0, ih]

theorem mem_of_mapGet_eq_some {β : Type} {m : List (String × β)}
    {k : String} {v : β} (h : mapGet m k = some v) : (k, v) ∈ m := by
  induction m with
  | nil => simp [mapGet] at h
  | cons hd tl ih =>
    obtain ⟨k0, v0⟩ := hd
    by_cases h0 : k0 = k
    · subst h0
      simp [mapGet] at h
      simp [h]
    · simp [mapGet, h0] at h
      exact List.mem_cons_of_mem _ (ih h)

theorem mapGet_eq_some_of_mem {β : Type} {m : List (String × β)}
    {k : String} {v : β} (hnd : (m.map Prod.fst).Nodup) (h : (k, v) ∈ m) :
    mapGet m k = some v := by
  induction m with
  | nil => simp at h
  | cons hd tl ih =>
    obtain ⟨k0, v0⟩ := hd
    simp only [List.map_cons, List.nodup_cons] at hnd
    rcases List.mem_cons.1 h with h1 | h1
    · obtain ⟨hk, hv⟩ := Prod.mk.injEq .. ▸ h1
      subst hk hv
      simp [mapGet]
    · have hk : k0 ≠ k := by
        intro he
        exact hnd.1 (he ▸ (List.mem_map.2 ⟨(k, v), h1, rfl⟩))
      simp [mapGet, hk, ih hnd.2 h1]

theorem mapGet_eq_none_iff {β : Type} (m : List (String × β)) (k : String) :
    mapGet m k = none ↔ k ∉ m.map Prod.fst := by
  induction m with
  | nil => simp [mapGet]
  | cons hd tl ih =>
    obtain ⟨k0, v0⟩ := hd
    by_cases h0 : k0 = k
    · subst h0
      simp [mapGet]
    · simp [mapGet, h0, ih, Ne.symm h0]

theorem mapGet_isSome_iff {β : Type} (m : List (String × β)) (k : String) :
    (mapGet m k).isSome = true ↔ k ∈ m.map Prod.fst := by
  rw [← Decidable.not_iff_not, ← mapGet_eq_none_iff (m := m) (k := k)]
  cases mapGet m k <;> simp

theorem mem_mapSet {β : Type} {m : List (String × β)} {k : String} {v : β}
    {e : String × β} (h : e ∈ mapSet m k v) : e = (k, v) ∨ e ∈ m := by
  induction m with
  | nil => simpa [mapSet] using h
  | cons hd tl ih =>
    obtain ⟨k0, v0⟩ := hd
    by_cases h0 : k0 = k
    · simp only [mapSet, h0, if_pos] at h
      rcases List.mem_cons.1 h with h1 | h1
      · exact Or.inl h1
      · exact Or.inr (List.mem_cons_of_mem _ h1)
    · simp only [mapSet, h0, if_neg, not_false_iff] at h
      rcases List.mem_cons.1 h with h1 | h1
      · exact Or.inr (h1 ▸ List.mem_cons_self _ _)
      · rcases ih h1 with h2 | h2
        · exact Or.inl h2
        · exact Or.inr (List.mem_cons_of_mem _ h2)

theorem keys_mapSet_nodup {β : Type} {m : List (String × β)} (k : String)
    (v : β) (h : (m.map Prod.fst).Nodup) :
    ((mapSet m k v).map Prod.fst).Nodup := by
  induction m with
  | nil => simp [mapSet]
  | cons hd tl ih =>
    obtain ⟨k0, v0⟩ := hd
    simp only [List.map_cons, List.nodup_cons] at h
    by_cases h0 : k0 = k
    · subst h0
      simp only [mapSet, if_pos rfl, List.map_cons, List.nodup_cons]
      exact List.nodup_cons.2 ⟨h.1, h.2⟩
    · simp only [mapSet, if_neg h0, List.map_cons, List.nodup_cons]
      refine ⟨fun hc => ?_, ih h.2⟩
      rcases List.mem_map.1 hc with ⟨e, he, hfst⟩
      rcases mem_mapSet he with h1 | h1
      · exact h0 (by rw [h1] at hfst; exact hfst.symm ▸ rfl)
      · exact h.1 (List.mem_map.2 ⟨e, h1, hfst⟩)

/-! ## C8: normalized term frequencies sum to one -/

theorem sum_mapSet_incr (m : List (String × ℚ)) (k : String) :
    ((mapSet m k ((mapGet m k).getD 0 + 1)).map Prod.snd).sum =
      (m.map Prod.snd).sum + 1 := by
  induction m with
  | nil => simp [mapSet, mapGet]
  | cons hd tl ih =>
    obtain ⟨k0, v0⟩ := hd
    by_cases h0 : k0 = k
    · subst h0
      simp [mapSet, mapGet]
      ring
    · simp only [mapSet, mapGet, if_neg h0, List.map_cons, List.sum_cons, ih]
      ring

theorem sum_countsFold (tokens : List String) :
    ∀ m : List (String × ℚ),
      ((tokens.foldl
        (fun m tok => mapSet m tok ((mapGet m tok).getD 0 + 1)) m).map
          Prod.snd).sum = (m.map Prod.snd).sum + tokens.length := by
  induction tokens with
  | nil => intro m; simp
  | cons t ts ih =>
    intro m
    simp only [List.foldl_cons, ih, sum_mapSet_incr, List.length_cons]
    push_cast
    ring

theorem sum_map_snd_div (l : List (String × ℚ)) (c : ℚ) :
    ((l.map (fun tv => tv.2 / c)).sum) = (l.map Prod.snd).sum / c := by
  induction l with
  | nil => simp
  | cons hd tl ih => simp [ih, add_div]

/-- C8 (amended): the stored frequencies of `computeTF(tokenize(D))` sum to
exactly 1 whenever the tokenizer produces at least one token.  (The claim
as stated — for every non-empty document text — fails: see the
counterexample on stopword-only text.) -/
theorem computeTF_tokenize_sum_one (text : String)
    (h : tokenize text ≠ []) :
    (((computeTF (tokenize text)).map Prod.snd).sum : ℚ) = 1 := by
  have hlen : (tokenize text).length ≠ 0 := by
    simpa [List.length_eq_zero] using h
  unfold computeTF
  rw [if_neg hlen, List.map_map]
  have : (Prod.snd ∘ fun tv : String × ℚ =>
      (tv.1, tv.2 / ((tokenize text).length : ℚ))) =
      (fun tv : String × ℚ => tv.2 / ((tokenize text).length : ℚ)) := rfl
  rw [this, sum_map_snd_div, sum_countsFold]
  simp only [List.map_nil, List.sum_nil, zero_add]
  exact div_self (by exact_mod_cast hlen)

/-- C8 counterexample: `"the"` is a non-empty document text, yet its
normalized term frequencies sum to 0, not 1 — the only token is a
stopword, so `tokenize` returns the empty sequence. -/
theorem computeTF_sum_counterexample :
    ("the" : String) ≠ "" ∧
      (((computeTF (tokenize "the")).map Prod.snd).sum : ℚ) ≠ 1 := by
  constructor
  · decide
  · decide

/-- C8 witness: a concrete two-token document. -/
theorem computeTF_tokenize_sum_one_witness :
    (((computeTF (tokenize "apple banana")).map Prod.snd).sum : ℚ) = 1 :=
  computeTF_tokenize_sum_one "apple banana" (by decide)

/-! ## C9: tokenize is not idempotent as claimed -/

/-- C9 counterexample: tokenizing `"abouts"` yields `["about"]`; stemming
turned a non-stopword into the stopword `"about"`, so re-tokenizing the
joined output drops it and the sequences differ. -/
theorem tokenize_idempotent_counterexample :
    tokenize (joinSpace (tokenize "abouts")) ≠ tokenize "abouts" := by
  decide

/-- A second failure mode kept for the record: `"helpfully"` stems to
`"helpful"`, which stems again to `"help"` on the second pass. -/
theorem tokenize_second_pass_stems_again :
    tokenize (joinSpace (tokenize "helpfully")) ≠
      tokenize "helpfully" := by
  decide

/-! ## C6: cosine similarity -/

theorem sum_entries_eq_finset_sum (a : List (String × ℝ))
    (f : String → ℝ → ℝ) (ha : (a.map Prod.fst).Nodup) :
    (a.map (fun tv => f tv.1 tv.2)).sum =
      ∑ t ∈ (a.map Prod.fst).toFinset, f t (vecVal a t) := by
  induction a with
  | nil => simp
  | cons hd tl ih =>
    obtain ⟨k, v⟩ := hd
    simp only [List.map_cons, List.nodup_cons] at ha
    have hk : k ∉ (tl.map Prod.fst).toFinset := by
      simpa using ha.1
    simp only [List.map_cons, List.sum_cons, List.toFinset_cons]
    rw [Finset.sum_insert hk, ih ha.2]
    congr 1
    · simp [vecVal, mapGet]
    · refine Finset.sum_congr rfl fun t ht => ?_
      have htk : k ≠ t := by
        intro he
        exact ha.1 (he ▸ List.mem_toFinset.1 ht)
      simp [vecVal, mapGet, htk]

theorem vecVal_of_not_mem {a : List (String × ℝ)} {t : String}
    (h : t ∉ a.map Prod.fst) : vecVal a t = 0 := by
  simp [vecVal, (mapGet_eq_none_iff a t).2 h]

theorem vecVal_nonneg {b : List (String × ℝ)}
    (hb : ∀ tv ∈ b, 0 ≤ tv.2) (t : String) : 0 ≤ vecVal b t := by
  unfold vecVal
  cases h : mapGet b t with
  | none => simp
  | some w => simpa using hb _ (mem_of_mapGet_eq_some h)

theorem dotProduct_eq_finset_sum (a b : List (String × ℝ))
    (ha : (a.map Prod.fst).Nodup) :
    dotProduct a b =
      ∑ t ∈ (a.map Prod.fst).toFinset, vecVal a t * vecVal b t := by
  unfold dotProduct
  have hfun : (fun tv : String × ℝ =>
      match mapGet b tv.1 with
      | some w => tv.2 * w
      | none => 0) = fun tv : String × ℝ => tv.2 * vecVal b tv.1 := by
    funext tv
    cases h : mapGet b tv.1 <;> simp [vecVal, h]
  rw [hfun]
  exact sum_entries_eq_finset_sum a (fun t v => v * vecVal b t) ha

theorem normSq_eq_finset_sum (a : List (String × ℝ))
    (ha : (a.map Prod.fst).Nodup) :
    normSq a = ∑ t ∈ (a.map Prod.fst).toFinset, vecVal a t * vecVal a t :=
  sum_entries_eq_finset_sum a (fun _ v => v * v) ha

theorem normSq_nonneg (a : List (String × ℝ)) : 0 ≤ normSq a := by
  refine List.sum_nonneg fun x hx => ?_
  rcases List.mem_map.1 hx with ⟨tv, _, rfl⟩
  exact mul_self_nonneg _

theorem dotProduct_le_sqrt_mul_sqrt (a b : List (String × ℝ))
    (ha : (a.map Prod.fst).Nodup) (hb : (b.map Prod.fst).Nodup) :
    dotProduct a b ≤ Real.sqrt (normSq a) * Real.sqrt (normSq b) := by
  classical
  set S := (a.map Prod.fst).toFinset ∪ (b.map Prod.fst).toFinset with hS
  have hdot : dotProduct a b = ∑ t ∈ S, vecVal a t * vecVal b t := by
    rw [dotProduct_eq_finset_sum a b ha]
    refine Finset.sum_subset Finset.subset_union_left fun t _ ht => ?_
    rw [vecVal_of_not_mem (fun hc => ht (List.mem_toFinset.2 hc))]
    ring
  have hna : normSq a = ∑ t ∈ S, vecVal a t ^ 2 := by
    rw [normSq_eq_finset_sum a ha]
    rw [show ∀ s : Finset String, (∑ t ∈ s, vecVal a t * vecVal a t) =
        ∑ t ∈ s, vecVal a t ^ 2 from fun s =>
      Finset.sum_congr rfl fun t _ => (pow_two _).symm]
    refine Finset.sum_subset Finset.subset_union_left fun t _ ht => ?_
    rw [vecVal_of_not_mem (fun hc => ht (List.mem_toFinset.2 hc))]
    ring
  have hnb : normSq b = ∑ t ∈ S, vecVal b t ^ 2 := by
    rw [normSq_eq_finset_sum b hb]
    rw [show ∀ s : Finset String, (∑ t ∈ s, vecVal b t * vecVal b t) =
        ∑ t ∈ s, vecVal b t ^ 2 from fun s =>
      Finset.sum_congr rfl fun t _ => (pow_two _).symm]
    refine Finset.sum_subset Finset.subset_union_right fun t _ ht => ?_
    rw [vecVal_of_not_mem (fun hc => ht (List.mem_toFinset.2 hc))]
    ring
  rw [hdot, hna, hnb]
  exact Real.sum_mul_le_sqrt_mul_sqrt S (vecVal a) (vecVal b)

/-- C6: `cosineSimilarity` is total — it returns 0 whenever either norm is
0 (including against the empty vector), stays in `[0,1]` on vectors with
nonnegative entries, and equals 1 on a nonzero vector against itself.
The `Nodup` hypotheses state the key-uniqueness every JS `Map` provides. -/
theorem cosineSimilarity_spec (a b : List (String × ℝ))
    (ha : (a.map Prod.fst).Nodup) (hb : (b.map Prod.fst).Nodup) :
    (normSq a = 0 ∨ normSq b = 0 → cosineSimilarity a b = 0) ∧
    ((∀ tv ∈ a, 0 ≤ tv.2) → (∀ tv ∈ b, 0 ≤ tv.2) →
      0 ≤ cosineSimilarity a b ∧ cosineSimilarity a b ≤ 1) ∧
    cosineSimilarity a [] = 0 ∧
    ((∃ tv ∈ a, tv.2 ≠ 0) → cosineSimilarity a a = 1) := by
  refine ⟨?_, ?_, ?_, ?_⟩
  · intro h
    rcases h with h | h <;> simp [cosineSimilarity, h]
  · intro hnna hnnb
    by_cases hd : Real.sqrt (normSq a) * Real.sqrt (normSq b) = 0
    · simp [cosineSimilarity, hd]
    · have hdpos : 0 < Real.sqrt (normSq a) * Real.sqrt (normSq b) :=
        lt_of_le_of_ne (mul_nonneg (Real.sqrt_nonneg _) (Real.sqrt_nonneg _))
          (Ne.symm hd)
      have hdotnn : 0 ≤ dotProduct a b := by
        refine List.sum_nonneg fun x hx => ?_
        rcases List.mem_map.1 hx with ⟨tv, htv, rfl⟩
        cases hw : mapGet b tv.1 with
        | none => simp
        | some w =>
          exact mul_nonneg (hnna _ htv)
            (hnnb _ (mem_of_mapGet_eq_some hw))
      have hcos : cosineSimilarity a b =
          dotProduct a b /
            (Real.sqrt (normSq a) * Real.sqrt (normSq b)) := by
        simp [cosineSimilarity, hd]
      rw [hcos]
      exact ⟨div_nonneg hdotnn hdpos.le,
        (div_le_one hdpos).2 (dotProduct_le_sqrt_mul_sqrt a b ha hb)⟩
  · simp [cosineSimilarity, normSq]
  · rintro ⟨tv, htv, hne⟩
    have hdot : dotProduct a a = normSq a := by
      unfold dotProduct normSq
      congr 1
      refine List.map_congr_left fun x hx => ?_
      rw [mapGet_eq_some_of_mem ha hx]
    have hpos : 0 < normSq a := by
      have hmem : tv.2 * tv.2 ∈ a.map fun tv => tv.2 * tv.2 :=
        List.mem_map.2 ⟨tv, htv, rfl⟩
      have hle : tv.2 * tv.2 ≤ normSq a := by
        refine List.single_le_sum (fun x hx => ?_) _ hmem
        rcases List.mem_map.1 hx with ⟨e, _, rfl⟩
        exact mul_self_nonneg _
      exact lt_of_lt_of_le (mul_self_pos.2 hne) hle
    have hds : Real.sqrt (normSq a) * Real.sqrt (normSq a) = normSq a :=
      Real.mul_self_sqrt hpos.le
    have hd0 : Real.sqrt (normSq a) * Real.sqrt (normSq a) ≠ 0 := by
      rw [hds]; exact ne_of_gt hpos
    have hstep : cosineSimilarity a a = normSq a / normSq a := by
      simp only [cosineSimilarity]
      rw [if_neg hd0, hds, hdot]
    rw [hstep]
    exact div_self (ne_of_gt hpos)

/-- C6 witness: a one-term unit vector against itself and against the
empty vector. -/
theorem cosineSimilarity_spec_witness :
    cosineSimilarity [("x", (1 : ℝ))] [("x", (1 : ℝ))] = 1 ∧
      cosineSimilarity [("x", (1 : ℝ))] [] = 0 := by
  have h := cosineSimilarity_spec [("x", (1 : ℝ))] [("x", (1 : ℝ))]
    (by simp) (by simp)
  exact ⟨h.2.2.2 ⟨("x", 1), by simp, one_ne_zero⟩, h.2.2.1⟩

/-! ## C7: IDF of ubiquitous terms and strict positivity of TF-IDF -/

theorem mapGet_innerDfFold (doc : List (String × ℚ)) :
    ∀ (df : List (String × ℕ)) (t : String),
      (doc.map Prod.fst).Nodup →
      mapGet (doc.foldl
        (fun dfAcc tv => mapSet dfAcc tv.1 ((mapGet dfAcc tv.1).getD 0 + 1))
        df) t =
      if t ∈ doc.map Prod.fst then some ((mapGet df t).getD 0 + 1)
      else mapGet df t := by
  induction doc with
  | nil => intro df t _; simp
  | cons hd tl ih =>
    intro df t hnd
    obtain ⟨k, v⟩ := hd
    simp only [List.map_cons, List.nodup_cons] at hnd
    simp only [List.foldl_cons]
    rw [ih _ t hnd.2]
    by_cases ht : t = k
    · subst ht
      rw [if_neg hnd.1, if_pos (by simp), mapGet_mapSet_self]
    · rw [mapGet_mapSet_ne _ _ _ _ (Ne.symm ht)]
      by_cases htl : t ∈ tl.map Prod.fst
      · rw [if_pos htl, if_pos (by simp [List.mem_cons, htl])]
      · rw [if_neg htl, if_neg (by simp [List.mem_cons, ht, htl])]

theorem mapGet_outerDfFold (docs : List (List (String × ℚ))) :
    ∀ (df : List (String × ℕ)) (t : String),
      (∀ d ∈ docs, (d.map Prod.fst).Nodup) →
      mapGet (docs.foldl
        (fun df doc => doc.foldl
          (fun dfAcc tv =>
            mapSet dfAcc tv.1 ((mapGet dfAcc tv.1).getD 0 + 1))
          df)
        df) t =
      (if docs.countP (fun d => decide (t ∈ d.map Prod.fst)) = 0 then
        mapGet df t
      else some ((mapGet df t).getD 0 +
        docs.countP (fun d => decide (t ∈ d.map Prod.fst)))) := by
  induction docs with
  | nil => intro df t _; simp
  | cons d rest ih =>
    intro df t hnd
    simp only [List.foldl_cons]
    rw [ih _ t fun x hx => hnd x (List.mem_cons_of_mem _ hx)]
    rw [mapGet_innerDfFold d df t (hnd d (List.mem_cons_self _ _))]
    rw [List.countP_cons]
    by_cases hmem : t ∈ d.map Prod.fst <;>
      by_cases hc :
        rest.countP (fun d => decide (t ∈ d.map Prod.fst)) = 0 <;>
      (simp [hmem, hc]; try omega)

theorem mapGet_dfFold (docs : List (List (String × ℚ))) (t : String)
    (hnd : ∀ d ∈ docs, (d.map Prod.fst).Nodup) :
    mapGet (dfFold docs) t =
      (if docs.countP (fun d => decide (t ∈ d.map Prod.fst)) = 0 then none
      else some (docs.countP (fun d => decide (t ∈ d.map Prod.fst)))) := by
  unfold dfFold
  rw [mapGet_outerDfFold docs [] t hnd]
  simp [mapGet]

theorem mapGet_idfMap (l : List (String × ℕ)) (N : ℝ) (k : String) :
    mapGet (l.map (fun tf => (tf.1, Real.log (N / (1 + (tf.2 : ℝ)))))) k =
      (mapGet l k).map (fun freq : ℕ => Real.log (N / (1 + (freq : ℝ)))) := by
  induction l with
  | nil => simp [mapGet]
  | cons hd tl ih =>
    obtain ⟨k0, v0⟩ := hd
    by_cases h0 : k0 = k
    · subst h0
      simp [mapGet]
    · simp [mapGet, h0, ih]

theorem mapGet_computeIDF (docs : List (List (String × ℚ))) (t : String)
    (hnd : ∀ d ∈ docs, (d.map Prod.fst).Nodup) (hne : docs.length ≠ 0) :
    mapGet (computeIDF docs) t =
      (if docs.countP (fun d => decide (t ∈ d.map Prod.fst)) = 0 then none
      else some (Real.log ((docs.length : ℝ) /
        (1 + (docs.countP (fun d => decide (t ∈ d.map Prod.fst)) : ℝ))))) := by
  unfold computeIDF
  rw [if_neg hne, mapGet_idfMap, mapGet_dfFold docs t hnd]
  by_cases hc : docs.countP (fun d => decide (t ∈ d.map Prod.fst)) = 0 <;>
    simp [hc]

theorem computeTF_values_nonneg (tokens : List String) :
    ∀ tv ∈ computeTF tokens, 0 ≤ tv.2 := by
  have hcounts : ∀ (toks : List String) (m : List (String × ℚ)),
      (∀ tv ∈ m, 0 ≤ tv.2) →
      ∀ tv ∈ toks.foldl
        (fun m tok => mapSet m tok ((mapGet m tok).getD 0 + 1)) m,
        0 ≤ tv.2 := by
    intro toks
    induction toks with
    | nil => intro m hm tv htv; exact hm tv htv
    | cons t ts ih =>
      intro m hm tv htv
      refine ih _ (fun e he => ?_) tv htv
      rcases mem_mapSet he with h1 | h1
      · subst h1
        have : 0 ≤ ((mapGet m t).getD 0 : ℚ) := by
          cases hg : mapGet m t with
          | none => simp
          | some w => simpa using hm _ (mem_of_mapGet_eq_some hg)
        simp only
        linarith
      · exact hm _ h1
  intro tv htv
  unfold computeTF at htv
  by_cases hlen : tokens.length = 0
  · simp [hlen] at htv
  · rw [if_neg hlen] at htv
    rcases List.mem_map.1 htv with ⟨e, he, rfl⟩
    have he2 : 0 ≤ e.2 := hcounts tokens [] (by simp) e he
    exact div_nonneg he2 (by positivity)

theorem mapGet_computeTFIDF_none (tf : List (String × ℚ))
    (idf : List (String × ℝ)) (term : String)
    (h : ∀ tv ∈ tf, tv.1 = term →
      ¬(0 < (tv.2 : ℝ) * ((mapGet idf tv.1).getD 0 : ℝ))) :
    mapGet (computeTFIDF tf idf) term = none := by
  unfold computeTFIDF
  suffices hgen : ∀ (l : List (String × ℚ)) (acc : List (String × ℝ)),
      (∀ tv ∈ l, tv.1 = term →
        ¬(0 < (tv.2 : ℝ) * ((mapGet idf tv.1).getD 0 : ℝ))) →
      mapGet acc term = none →
      mapGet (l.foldl
        (fun acc tv =>
          let idfValue := (mapGet idf tv.1).getD 0
          let score := (tv.2 : ℝ) * idfValue
          if 0 < score then mapSet acc tv.1 score else acc)
        acc) term = none by
    exact hgen tf [] h (by simp [mapGet])
  intro l
  induction l with
  | nil => intro acc _ hacc; simpa using hacc
  | cons tv rest ih =>
    intro acc hl hacc
    simp only [List.foldl_cons]
    refine ih _ (fun e he het => hl e (List.mem_cons_of_mem _ he) het) ?_
    by_cases hsc : 0 < (tv.2 : ℝ) * ((mapGet idf tv.1).getD 0 : ℝ)
    · have hne : tv.1 ≠ term := fun he =>
        hl tv (List.mem_cons_self _ _) he hsc
      simp only [if_pos hsc]
      rw [mapGet_mapSet_ne _ _ _ _ hne]
      exact hacc
    · simpa [hsc] using hacc

theorem computeTFIDF_values_pos (tf : List (String × ℚ))
    (idf : List (String × ℝ)) :
    ∀ tv ∈ computeTFIDF tf idf, 0 < tv.2 := by
  unfold computeTFIDF
  suffices hgen : ∀ (l : List (String × ℚ)) (acc : List (String × ℝ)),
      (∀ tv ∈ acc, 0 < tv.2) →
      ∀ tv ∈ l.foldl
        (fun acc tv =>
          let idfValue := (mapGet idf tv.1).getD 0
          let score := (tv.2 : ℝ) * idfValue
          if 0 < score then mapSet acc tv.1 score else acc)
        acc, 0 < tv.2 by
    exact hgen tf [] (by simp)
  intro l
  induction l with
  | nil => intro acc hacc tv htv; exact hacc tv htv
  | cons e rest ih =>
    intro acc hacc tv htv
    simp only [List.foldl_cons] at htv
    refine ih _ (fun x hx => ?_) tv htv
    by_cases hsc : 0 < (e.2 : ℝ) * ((mapGet idf e.1).getD 0 : ℝ)
    · simp only [if_pos hsc] at hx
      rcases mem_mapSet hx with h1 | h1
      · subst h1; exact hsc
      · exact hacc _ h1
    · simp only [if_neg hsc] at hx
      exact hacc _ hx

/-- C7: in a corpus of `N ≥ 1` TF vectors, a term present with nonzero
frequency in all of them receives `IDF = ln(N/(1+N)) < 0`, is elided from
every TF-IDF vector computed against that table, and every entry a TF-IDF
vector does store is strictly positive. -/
theorem computeIDF_ubiquitous_spec (docs : List (List (String × ℚ)))
    (term : String) (hN : 1 ≤ docs.length)
    (hnd : ∀ d ∈ docs, (d.map Prod.fst).Nodup)
    (hall : ∀ d ∈ docs, ∃ v, mapGet d term = some v ∧ v ≠ 0) :
    mapGet (computeIDF docs) term =
      some (Real.log ((docs.length : ℝ) / (1 + (docs.length : ℝ)))) ∧
    Real.log ((docs.length : ℝ) / (1 + (docs.length : ℝ))) < 0 ∧
    (∀ tokens : List String,
      mapGet (computeTFIDF (computeTF tokens) (computeIDF docs)) term =
        none) ∧
    (∀ (tf : List (String × ℚ)) (idf : List (String × ℝ)) (t : String)
      (v : ℝ), mapGet (computeTFIDF tf idf) t = some v → 0 < v) := by
  have hcount : docs.countP (fun d => decide (term ∈ d.map Prod.fst)) =
      docs.length := by
    rw [List.countP_eq_length]
    intro d hd
    rcases hall d hd with ⟨v, hv, _⟩
    simp only [decide_eq_true_eq]
    exact List.mem_map.2 ⟨(term, v), mem_of_mapGet_eq_some hv, rfl⟩
  have hlen : docs.length ≠ 0 := by omega
  have hidf : mapGet (computeIDF docs) term =
      some (Real.log ((docs.length : ℝ) / (1 + (docs.length : ℝ)))) := by
    rw [mapGet_computeIDF docs term hnd hlen, hcount, if_neg hlen]
  have hneg : Real.log ((docs.length : ℝ) / (1 + (docs.length : ℝ))) < 0 := by
    have hNR : (1 : ℝ) ≤ (docs.length : ℝ) := by exact_mod_cast hN
    apply Real.log_neg
    · positivity
    · rw [div_lt_one (by positivity)]
      linarith
  refine ⟨hidf, hneg, fun tokens => ?_, fun tf idf t v hv =>
    computeTFIDF_values_pos tf idf _ (mem_of_mapGet_eq_some hv)⟩
  apply mapGet_computeTFIDF_none
  intro tv htv hterm
  rw [hterm, hidf]
  simp only [Option.getD_some]
  have h1 : (0 : ℝ) ≤ (tv.2 : ℝ) := by
    exact_mod_cast computeTF_values_nonneg tokens tv htv
  nlinarith

/-- C7 witness: a one-document corpus whose single term appears
everywhere. -/
theorem computeIDF_ubiquitous_spec_witness :
    mapGet (computeTFIDF (computeTF ["x"])
      (computeIDF [[("x", (1 : ℚ))]])) "x" = none ∧
    Real.log ((1 : ℝ) / (1 + 1)) < 0 := by
  have h := computeIDF_ubiquitous_spec [[("x", (1 : ℚ))]] "x"
    (by decide) (by decide)
    (fun d hd => by
      simp only [List.mem_singleton] at hd
      exact ⟨1, by rw [hd]; decide, one_ne_zero⟩)
  refine ⟨h.2.2.1 ["x"], ?_⟩
  have := h.2.1
  norm_num at this ⊢
  exact this

/-! ## C1: findSimilar -/

/-- C1: `findSimilar` returns `[]` when the engine is not ready or the
queried id has no TF-IDF vector; otherwise the result never contains the
queried document, contains no entry with similarity `≤ 0.01`, has at most
`topK` entries, and is sorted non-increasing by similarity. -/
theorem findSimilar_spec (files : List FileMeta) (s : EngineState)
    (path : String) (topK : ℕ) :
    (s.indexReady = false → findSimilar files s path topK = []) ∧
    (mapGet s.tfidfVectors path = none →
      findSimilar files s path topK = []) ∧
    (∀ e ∈ findSimilar files s path topK,
      e.1.path ≠ path ∧ (0.01 : ℝ) < e.2) ∧
    (findSimilar files s path topK).length ≤ topK ∧
    List.Pairwise (fun x y : FileMeta × ℝ => y.2 ≤ x.2)
      (findSimilar files s path topK) := by
  by_cases hr : s.indexReady = false
  · refine ⟨fun _ => by simp [findSimilar, hr],
      fun _ => by simp [findSimilar, hr], ?_, ?_, ?_⟩ <;>
      simp [findSimilar, hr]
  · cases hv : mapGet s.tfidfVectors path with
    | none =>
      refine ⟨fun h => absurd h hr, fun _ => by simp [findSimilar, hr, hv],
        ?_, ?_, ?_⟩ <;> simp [findSimilar, hr, hv]
    | some src =>
      have hres : findSimilar files s path topK =
          ((List.insertionSort (fun x y : String × ℝ => y.2 ≤ x.2)
            (s.tfidfVectors.filterMap (fun pv =>
              if pv.1 = path then none
              else
                if (0.01 : ℝ) < cosineSimilarity src pv.2 then
                  some (pv.1, cosineSimilarity src pv.2)
                else none))).take topK).filterMap (fun ps =>
            (files.find? (fun f => decide (f.path = ps.1))).map
              (fun f => (f, ps.2))) := by
        simp [findSimilar, hr, hv]
      have hscore : ∀ ps ∈ (List.insertionSort
          (fun x y : String × ℝ => y.2 ≤ x.2)
          (s.tfidfVectors.filterMap (fun pv =>
            if pv.1 = path then none
            else
              if (0.01 : ℝ) < cosineSimilarity src pv.2 then
                some (pv.1, cosineSimilarity src pv.2)
              else none))).take topK,
          ps.1 ≠ path ∧ (0.01 : ℝ) < ps.2 := by
        intro ps hps
        have hps2 := (List.mem_insertionSort _).1 (List.mem_of_mem_take hps)
        rcases List.mem_filterMap.1 hps2 with ⟨pv, _, hcond⟩
        by_cases h1 : pv.1 = path
        · simp [h1] at hcond
        · by_cases h2 : (0.01 : ℝ) < cosineSimilarity src pv.2
          · rw [if_neg h1, if_pos h2, Option.some.injEq] at hcond
            subst hcond
            exact ⟨h1, h2⟩
          · simp [h1, h2] at hcond
      refine ⟨fun h => absurd h hr,
        fun h => absurd h (Option.some_ne_none src), ?_, ?_, ?_⟩
      · intro e he
        rw [hres] at he
        rcases List.mem_filterMap.1 he with ⟨ps, hps, hF⟩
        rcases Option.map_eq_some'.1 hF with ⟨f, hfind, hfe⟩
        have hp := List.find?_some hfind
        have hfp : f.path = ps.1 := of_decide_eq_true hp
        rcases hscore ps hps with ⟨hne, hgt⟩
        subst hfe
        exact ⟨by simpa [hfp] using hne, hgt⟩
      · rw [hres]
        exact le_trans (List.length_filterMap_le _ _)
          (List.length_take_le _ _)
      · rw [hres]
        letI : IsTotal (String × ℝ) (fun x y => y.2 ≤ x.2) :=
          ⟨fun a b => le_total b.2 a.2⟩
        letI : IsTrans (String × ℝ) (fun x y => y.2 ≤ x.2) :=
          ⟨fun a b c h1 h2 => le_trans h2 h1⟩
        have hsorted := List.sorted_insertionSort
          (fun x y : String × ℝ => y.2 ≤ x.2)
          (s.tfidfVectors.filterMap (fun pv =>
            if pv.1 = path then none
            else
              if (0.01 : ℝ) < cosineSimilarity src pv.2 then
                some (pv.1, cosineSimilarity src pv.2)
              else none))
        have htake := hsorted.sublist (List.take_sublist topK _)
        refine htake.filterMap _ fun a b hab x hx y hy => ?_
        rcases Option.map_eq_some'.1 hx with ⟨f1, _, hx2⟩
        rcases Option.map_eq_some'.1 hy with ⟨f2, _, hy2⟩
        subst hx2
        subst hy2
        exact hab

/-- C1 witness: the not-ready engine returns the empty result. -/
theorem findSimilar_spec_witness : findSimilar [] initState "a" 5 = [] :=
  (findSimilar_spec [] initState "a" 5).1 rfl

/-! ## C5: the readiness state machine -/

/-- C5 (amended): a fresh engine is unbuilt, a zero-document build is a
no-op, readiness is sticky across every operation, and the engine becomes
ready only through a non-empty full build or a successful snapshot
restore.  (The claim as stated — only a full build sets readiness — fails:
see the counterexample, where `loadIndex` alone readies the engine.) -/
theorem readiness_spec :
    initState.indexReady = false ∧
    (∀ s : EngineState, indexVault [] s = s) ∧
    (∀ (s : EngineState) (op : Op), s.indexReady = true →
      (step s op).indexReady = true) ∧
    (∀ (s : EngineState) (op : Op), (step s op).indexReady = true →
      s.indexReady = true ∨
      (∃ docs, op = Op.build docs ∧ docs ≠ []) ∨
      (∃ inp, op = Op.restore inp ∧ (loadIndex s inp).1 = true)) := by
  refine ⟨rfl, fun s => by simp [indexVault], ?_, ?_⟩
  · intro s op hs
    cases op with
    | build docs =>
      by_cases hd : docs.length = 0 <;> simp [step, indexVault, hd, hs]
    | upsert p t => simp [step, indexNote, hs]
    | remove p => simpa [step, removeNote] using hs
    | restore inp =>
      cases inp with
      | absent => simpa [step, loadIndex] using hs
      | unparseable => simpa [step, loadIndex] using hs
      | parsed tfF idfF =>
        cases tfF with
        | none => simpa [step, loadIndex] using hs
        | some entries =>
          cases idfF with
          | none => simpa [step, loadIndex] using hs
          | some idfE => simp [step, loadIndex]
  · intro s op hs
    cases op with
    | build docs =>
      by_cases hd : docs.length = 0
      · left
        simpa [step, indexVault, hd] using hs
      · right; left
        exact ⟨docs, rfl, by simpa [← List.length_eq_zero] using hd⟩
    | upsert p t =>
      by_cases hready : s.indexReady = false
      · left
        rw [show step s (Op.upsert p t) = s from by
          simp [step, indexNote, hready]] at hs
        exact hs
      · left
        cases hb : s.indexReady
        · exact absurd hb hready
        · rfl
    | remove p =>
      left
      simpa [step, removeNote] using hs
    | restore inp =>
      cases inp with
      | absent => left; simpa [step, loadIndex] using hs
      | unparseable => left; simpa [step, loadIndex] using hs
      | parsed tfF idfF =>
        cases tfF with
        | none => left; simpa [step, loadIndex] using hs
        | some entries =>
          cases idfF with
          | none => left; simpa [step, loadIndex] using hs
          | some idfE =>
            right; right
            exact ⟨SnapshotInput.parsed (some entries) (some idfE), rfl,
              by simp [loadIndex]⟩

/-- C5 counterexample: a successful `loadIndex` alone transitions the
fresh, unbuilt engine to ready — no full build involved. -/
theorem readiness_counterexample :
    initState.indexReady = false ∧
    (loadIndex initState (SnapshotInput.parsed (some []) (some []))).1 =
      true ∧
    (loadIndex initState
      (SnapshotInput.parsed (some []) (some []))).2.indexReady = true :=
  ⟨rfl, rfl, rfl⟩

/-- C5 witness: readiness survives a removal. -/
theorem readiness_spec_witness :
    (step ⟨[], [], [], true⟩ (Op.remove "a")).indexReady = true :=
  readiness_spec.2.2.1 ⟨[], [], [], true⟩ (Op.remove "a") rfl

/-! ## C10: restore is not atomic on failure -/

/-- C10 (amended): a failed restore is atomic when the snapshot file is
absent or its contents do not parse; a parse-shaped failure leaves the
IDF table, the TF-IDF vectors and the readiness flag untouched, but the
TF maps have already been cleared (and possibly partially repopulated).
(The claim as stated — full atomicity on every failure — fails: see the
counterexample.) -/
theorem loadIndex_failure_spec (s : EngineState) (inp : SnapshotInput)
    (h : (loadIndex s inp).1 = false) :
    ((inp = SnapshotInput.absent ∨ inp = SnapshotInput.unparseable) →
      (loadIndex s inp).2 = s) ∧
    ((loadIndex s inp).2.idf = s.idf ∧
      (loadIndex s inp).2.tfidfVectors = s.tfidfVectors ∧
      (loadIndex s inp).2.indexReady = s.indexReady) := by
  cases inp with
  | absent => exact ⟨fun _ => rfl, rfl, rfl, rfl⟩
  | unparseable => exact ⟨fun _ => rfl, rfl, rfl, rfl⟩
  | parsed tfF idfF =>
    refine ⟨fun hc => ?_, ?_⟩
    · rcases hc with hc | hc <;> simp at hc
    · cases tfF with
      | none => exact ⟨rfl, rfl, rfl⟩
      | some entries =>
        cases idfF with
        | none => exact ⟨rfl, rfl, rfl⟩
        | some idfE => simp [loadIndex] at h

/-- C10 counterexample: restoring the parseable-but-wrong-shape snapshot
`{}` over a built index returns `false`, yet the TF maps are wiped — the
engine state is not what it was before the call. -/
theorem loadIndex_not_atomic_counterexample :
    (loadIndex (runOps initState [Op.build [("a", "apple")]])
      (SnapshotInput.parsed none none)).1 = false ∧
    (loadIndex (runOps initState [Op.build [("a", "apple")]])
      (SnapshotInput.parsed none none)).2 ≠
      runOps initState [Op.build [("a", "apple")]] := by
  refine ⟨rfl, fun h => ?_⟩
  have h2 := congrArg EngineState.tfMaps h
  have hL : (loadIndex (runOps initState [Op.build [("a", "apple")]])
      (SnapshotInput.parsed none none)).2.tfMaps = [] := rfl
  have hR : (runOps initState [Op.build [("a", "apple")]]).tfMaps =
      [("a", computeTF (tokenize "apple"))] := rfl
  rw [hL, hR] at h2
  exact List.noConfusion h2

/-- C10 witness: an absent snapshot file leaves the state untouched. -/
theorem loadIndex_failure_spec_witness :
    (loadIndex initState SnapshotInput.absent).2 = initState :=
  (loadIndex_failure_spec initState SnapshotInput.absent rfl).1 (Or.inl rfl)

/-! ## C3: the corpus-index invariant -/

theorem mapGet_isSome_foldl_mapSet {γ β : Type} (l : List (String × γ))
    (g : String × γ → β) :
    ∀ (acc : List (String × β)) (q : String),
      (mapGet (l.foldl (fun a p => mapSet a p.1 (g p)) acc) q).isSome =
        true ↔
      ((mapGet acc q).isSome = true ∨ q ∈ l.map Prod.fst) := by
  induction l with
  | nil => intro acc q; simp
  | cons p tl ih =>
    intro acc q
    simp only [List.foldl_cons]
    rw [ih]
    by_cases hq : p.1 = q
    · subst hq
      simp [mapGet_mapSet_self]
    · rw [mapGet_mapSet_ne _ _ _ _ hq]
      have hq2 : ¬q = p.1 := fun he => hq he.symm
      simp [List.mem_cons, hq2]

theorem nodup_keys_foldl_mapSet {γ β : Type} (l : List (String × γ))
    (g : String × γ → β) :
    ∀ acc : List (String × β), (acc.map Prod.fst).Nodup →
      (((l.foldl (fun a p => mapSet a p.1 (g p)) acc)).map Prod.fst).Nodup := by
  induction l with
  | nil => intro acc h; simpa using h
  | cons p tl ih =>
    intro acc h
    simp only [List.foldl_cons]
    exact ih _ (keys_mapSet_nodup _ _ h)

theorem mapDelete_sublist {β : Type} (m : List (String × β)) (k : String) :
    (mapDelete m k).Sublist m := by
  induction m with
  | nil => simp [mapDelete]
  | cons hd tl ih =>
    obtain ⟨k0, v0⟩ := hd
    by_cases h0 : k0 = k
    · simp only [mapDelete, if_pos h0]
      exact List.sublist_cons_self _ _
    · simp only [mapDelete, if_neg h0]
      exact ih.cons₂ _

theorem mapGet_mapDelete_self {β : Type} (m : List (String × β))
    (k : String) (h : (m.map Prod.fst).Nodup) :
    mapGet (mapDelete m k) k = none := by
  induction m with
  | nil => simp [mapDelete, mapGet]
  | cons hd tl ih =>
    obtain ⟨k0, v0⟩ := hd
    simp only [List.map_cons, List.nodup_cons] at h
    by_cases h0 : k0 = k
    · subst h0
      simp only [mapDelete, if_pos rfl]
      exact (mapGet_eq_none_iff tl k0).2 h.1
    · simp only [mapDelete, if_neg h0, mapGet, if_neg h0]
      exact ih h.2

/-- Combined well-formedness and domain invariant. -/
theorem inv_step (s : EngineState) (op : Op) (hsafe : restoreSafe op)
    (h : EngineWF s ∧ DomInv s) :
    EngineWF (step s op) ∧ DomInv (step s op) := by
  obtain ⟨⟨hwf1, hwf2⟩, hdom⟩ := h
  cases op with
  | build docs =>
    by_cases hd : docs.length = 0
    · simpa [step, indexVault, hd] using ⟨⟨hwf1, hwf2⟩, hdom⟩
    · simp only [step, indexVault, if_neg hd]
      refine ⟨⟨nodup_keys_foldl_mapSet _ _ [] (by simp),
        nodup_keys_foldl_mapSet _ _ [] (by simp)⟩, ?_⟩
      intro q hq
      rw [mapGet_isSome_foldl_mapSet] at hq ⊢
      rcases hq with hq | hq
      · simp [mapGet] at hq
      · right
        rw [← mapGet_isSome_iff, mapGet_isSome_foldl_mapSet]
        right
        exact hq
  | upsert p t =>
    by_cases hready : s.indexReady = false
    · simpa [step, indexNote, hready] using ⟨⟨hwf1, hwf2⟩, hdom⟩
    · simp only [step, indexNote, if_neg hready]
      refine ⟨⟨keys_mapSet_nodup _ _ hwf1, keys_mapSet_nodup _ _ hwf2⟩, ?_⟩
      intro q hq
      by_cases hqp : p = q
      · subst hqp
        simp [mapGet_mapSet_self]
      · rw [mapGet_mapSet_ne _ _ _ _ hqp] at hq
        simpa [mapGet_mapSet_ne _ _ _ _ hqp] using hdom q hq
  | remove p =>
    refine ⟨⟨((mapDelete_sublist _ _).map _).nodup hwf1,
      ((mapDelete_sublist _ _).map _).nodup hwf2⟩, ?_⟩
    intro q hq
    by_cases hqp : p = q
    · subst hqp
      rw [show (step s (Op.remove p)).tfMaps = mapDelete s.tfMaps p
          from rfl, mapGet_mapDelete_self _ _ hwf1] at hq
      simp at hq
    · rw [show (step s (Op.remove p)).tfMaps = mapDelete s.tfMaps p
          from rfl, mapGet_mapDelete_ne _ _ _ hqp] at hq
      show (mapGet (mapDelete s.tfidfVectors p) q).isSome = true
      rw [mapGet_mapDelete_ne _ _ _ hqp]
      exact hdom q hq
  | restore inp =>
    cases inp with
    | absent => exact ⟨⟨hwf1, hwf2⟩, hdom⟩
    | unparseable => exact ⟨⟨hwf1, hwf2⟩, hdom⟩
    | parsed tfF idfF =>
      cases tfF with
      | none =>
        refine ⟨⟨by simp [step, loadIndex], by simpa [step, loadIndex]
            using hwf2⟩, ?_⟩
        intro q hq
        simp [step, loadIndex, mapGet] at hq
      | some entries =>
        cases idfF with
        | none => exact absurd hsafe (by simp [restoreSafe])
        | some idfE =>
          simp only [step, loadIndex]
          refine ⟨⟨nodup_keys_foldl_mapSet _ _ [] (by simp),
            nodup_keys_foldl_mapSet _ _ [] (by simp)⟩, ?_⟩
          intro q hq
          rw [mapGet_isSome_foldl_mapSet] at hq ⊢
          rcases hq with hq | hq
          · simp [mapGet] at hq
          · right
            rw [← mapGet_isSome_iff, mapGet_isSome_foldl_mapSet]
            right
            exact hq

theorem inv_runOps (ops : List Op) (hsafe : ∀ op ∈ ops, restoreSafe op) :
    EngineWF (runOps initState ops) ∧ DomInv (runOps initState ops) := by
  suffices hgen : ∀ (l : List Op) (s : EngineState),
      (∀ op ∈ l, restoreSafe op) → EngineWF s ∧ DomInv s →
      EngineWF (runOps s l) ∧ DomInv (runOps s l) by
    refine hgen ops initState hsafe ⟨⟨by simp [initState], by
      simp [initState]⟩, ?_⟩
    intro q hq
    simp [initState, mapGet] at hq
  intro l
  induction l with
  | nil => intro s _ h; simpa [runOps] using h
  | cons op rest ih =>
    intro s hl h
    have hstep := inv_step s op (hl op (List.mem_cons_self _ _)) h
    simpa [runOps, List.foldl_cons] using
      ih (step s op) (fun x hx => hl x (List.mem_cons_of_mem _ hx)) hstep

/-- C3 (amended): after every sequence of builds, upserts, removes and
restores that do not fail halfway through, every document id in the TF
set has a TF-IDF vector; the IDF table equals the from-scratch IDF right
after a non-empty build or a ready upsert; a remove leaves the IDF table
unchanged — hence possibly stale, which is exactly where the claim as
stated fails (see the counterexample). -/
theorem index_invariant_spec :
    (∀ ops : List Op, (∀ op ∈ ops, restoreSafe op) →
      DomInv (runOps initState ops)) ∧
    (∀ (s : EngineState) (docs : List (String × String)),
      docs ≠ [] → idfFresh (indexVault docs s)) ∧
    (∀ (s : EngineState) (p t : String), s.indexReady = true →
      idfFresh (indexNote p t s)) ∧
    (∀ (s : EngineState) (p : String), (removeNote p s).idf = s.idf) := by
  refine ⟨fun ops hsafe => (inv_runOps ops hsafe).2, ?_, ?_, fun s p => rfl⟩
  · intro s docs hd
    have hlen : docs.length ≠ 0 := by
      simpa [List.length_eq_zero] using hd
    simp [indexVault, hlen, idfFresh]
  · intro s p t hready
    simp [indexNote, hready, idfFresh]

/-- C3 counterexample: build two documents, remove one — the IDF table
still carries the removed document's terms and differs from the IDF
recomputed over the current TF set. -/
theorem index_invariant_counterexample :
    ¬ idfFresh (runOps initState
      [Op.build [("a", "apple"), ("b", "banana")], Op.remove "b"]) := by
  intro h
  have hlen := congrArg List.length h
  have hL : (runOps initState
      [Op.build [("a", "apple"), ("b", "banana")],
        Op.remove "b"]).idf.length = 2 := rfl
  have hR : (computeIDF ((runOps initState
      [Op.build [("a", "apple"), ("b", "banana")],
        Op.remove "b"]).tfMaps.map Prod.snd)).length = 1 := rfl
  rw [hL, hR] at hlen
  exact Nat.noConfusion (Nat.succ.injEq .. ▸ hlen)

/-- C3 witness: the IDF table is fresh right after a non-empty build. -/
theorem index_invariant_spec_witness :
    idfFresh (indexVault [("a", "apple")] initState) :=
  index_invariant_spec.2.1 initState [("a", "apple")] (by simp)

/-! ## C2: remove / re-add round trip -/

theorem mapGet_computeIDF_perm (docs1 docs2 : List (List (String × ℚ)))
    (hperm : docs1.Perm docs2)
    (hnd : ∀ d ∈ docs1, (d.map Prod.fst).Nodup) (t : String) :
    mapGet (computeIDF docs1) t = mapGet (computeIDF docs2) t := by
  have hnd2 : ∀ d ∈ docs2, (d.map Prod.fst).Nodup := fun d hd =>
    hnd d (hperm.mem_iff.2 hd)
  by_cases hlen : docs1.length = 0
  · rw [List.length_eq_zero] at hlen
    subst hlen
    rw [hperm.symm.eq_nil]
  · have hlen2 : docs2.length ≠ 0 := by
      rw [← hperm.length_eq]; exact hlen
    rw [mapGet_computeIDF docs1 t hnd hlen,
      mapGet_computeIDF docs2 t hnd2 hlen2, hperm.length_eq,
      hperm.countP_eq]

theorem computeTFIDF_congr_idf (tf : List (String × ℚ))
    (idf1 idf2 : List (String × ℝ))
    (h : ∀ t, mapGet idf1 t = mapGet idf2 t) :
    computeTFIDF tf idf1 = computeTFIDF tf idf2 := by
  unfold computeTFIDF
  suffices hgen : ∀ (l : List (String × ℚ)) (acc : List (String × ℝ)),
      l.foldl (fun acc tv =>
        let idfValue := (mapGet idf1 tv.1).getD 0
        let score := (tv.2 : ℝ) * idfValue
        if 0 < score then mapSet acc tv.1 score else acc) acc =
      l.foldl (fun acc tv =>
        let idfValue := (mapGet idf2 tv.1).getD 0
        let score := (tv.2 : ℝ) * idfValue
        if 0 < score then mapSet acc tv.1 score else acc) acc by
    exact hgen tf []
  intro l
  induction l with
  | nil => intro acc; rfl
  | cons tv rest ih =>
    intro acc
    simp only [List.foldl_cons, h tv.1]
    exact ih _

theorem perm_cons_mapDelete {β : Type} (m : List (String × β)) (k : String)
    (v : β) (hget : mapGet m k = some v) :
    m.Perm ((k, v) :: mapDelete m k) := by
  induction m with
  | nil => simp [mapGet] at hget
  | cons hd tl ih =>
    obtain ⟨k0, v0⟩ := hd
    by_cases h0 : k0 = k
    · subst h0
      rw [show mapGet ((k0, v0) :: tl) k0 = some v0 from by
        simp [mapGet]] at hget
      injection hget with hv
      subst hv
      simp [mapDelete]
    · simp only [mapGet, if_neg h0] at hget
      simp only [mapDelete, if_neg h0]
      exact ((ih hget).cons (k0, v0)).trans (List.Perm.swap _ _ _)

theorem mapSet_eq_append_of_not_mem {β : Type} (m : List (String × β))
    (k : String) (v : β) (h : k ∉ m.map Prod.fst) :
    mapSet m k v = m ++ [(k, v)] := by
  induction m with
  | nil => simp [mapSet]
  | cons hd tl ih =>
    obtain ⟨k0, v0⟩ := hd
    simp only [List.map_cons, List.mem_cons] at h
    push_neg at h
    have hne : ¬k0 = k := fun he => h.1 he.symm
    simp only [mapSet, List.cons_append]
    rw [if_neg hne, ih h.2]

theorem perm_mapSet_mapDelete {β : Type} (m : List (String × β))
    (k : String) (v : β) (hnd : (m.map Prod.fst).Nodup)
    (hget : mapGet m k = some v) :
    (mapSet (mapDelete m k) k v).Perm m := by
  have hnone : mapGet (mapDelete m k) k = none :=
    mapGet_mapDelete_self m k hnd
  have hnmem : k ∉ (mapDelete m k).map Prod.fst :=
    (mapGet_eq_none_iff _ _).1 hnone
  rw [mapSet_eq_append_of_not_mem _ _ _ hnmem]
  exact List.Perm.trans (List.perm_append_singleton _ _)
    (perm_cons_mapDelete m k v hget).symm

/-- C2 (amended): on a ready engine whose IDF table is fresh and whose
stored TF-IDF vector for `id` was derived from that table (the situation
right after a full build), removing `id` and upserting it again with
identical text restores the TF-IDF vector exactly and leaves the IDF
table extensionally unchanged.  (The claim as stated — for every ready
index — fails when the pre-removal IDF is stale: see the
counterexample.) -/
theorem remove_upsert_roundtrip (s : EngineState) (id text : String)
    (tf : List (String × ℚ))
    (hready : s.indexReady = true)
    (hnodup : (s.tfMaps.map Prod.fst).Nodup)
    (hdocs : ∀ d ∈ s.tfMaps.map Prod.snd, (d.map Prod.fst).Nodup)
    (hget : mapGet s.tfMaps id = some tf)
    (htext : computeTF (tokenize text) = tf)
    (hfresh : idfFresh s)
    (hstored : mapGet s.tfidfVectors id =
      some (computeTFIDF tf s.idf)) :
    mapGet (indexNote id text (removeNote id s)).tfidfVectors id =
      mapGet s.tfidfVectors id ∧
    (∀ t, mapGet (indexNote id text (removeNote id s)).idf t =
      mapGet s.idf t) := by
  have hready1 : (removeNote id s).indexReady = true := hready
  have hnfalse : ¬(removeNote id s).indexReady = false := by
    rw [hready1]; simp
  have hperm : ((mapSet (mapDelete s.tfMaps id) id tf).map Prod.snd).Perm
      (s.tfMaps.map Prod.snd) :=
    (perm_mapSet_mapDelete s.tfMaps id tf hnodup hget).map Prod.snd
  have hnd1 : ∀ d ∈ (mapSet (mapDelete s.tfMaps id) id tf).map Prod.snd,
      (d.map Prod.fst).Nodup := fun d hd => hdocs d (hperm.mem_iff.1 hd)
  have hidf : ∀ t,
      mapGet (computeIDF
        ((mapSet (mapDelete s.tfMaps id) id tf).map Prod.snd)) t =
      mapGet s.idf t := by
    intro t
    rw [hfresh]
    exact mapGet_computeIDF_perm _ _ hperm hnd1 t
  have hstate : indexNote id text (removeNote id s) =
      ⟨mapSet (mapDelete s.tfMaps id) id tf,
        computeIDF ((mapSet (mapDelete s.tfMaps id) id tf).map Prod.snd),
        mapSet (mapDelete s.tfidfVectors id) id
          (computeTFIDF tf (computeIDF
            ((mapSet (mapDelete s.tfMaps id) id tf).map Prod.snd))),
        (removeNote id s).indexReady⟩ := by
    simp only [indexNote, if_neg hnfalse, htext]
    rfl
  constructor
  · rw [hstate]
    show mapGet (mapSet (mapDelete s.tfidfVectors id) id
      (computeTFIDF tf (computeIDF
        ((mapSet (mapDelete s.tfMaps id) id tf).map Prod.snd)))) id =
      mapGet s.tfidfVectors id
    rw [mapGet_mapSet_self, hstored,
      computeTFIDF_congr_idf tf _ _ hidf]
  · intro t
    rw [hstate]
    exact hidf t

/-- C2 witness: the round trip on a freshly built two-document corpus. -/
theorem remove_upsert_roundtrip_witness :
    mapGet (indexNote "a" "apple apple"
      (removeNote "a"
        (indexVault [("a", "apple apple"), ("b", "banana")]
          initState))).tfidfVectors "a" =
    mapGet (indexVault [("a", "apple apple"), ("b", "banana")]
      initState).tfidfVectors "a" :=
  (remove_upsert_roundtrip
    (indexVault [("a", "apple apple"), ("b", "banana")] initState)
    "a" "apple apple" (computeTF (tokenize "apple apple"))
    rfl (by decide) (by decide) rfl rfl rfl rfl).1

theorem mapSet_ne_nil {β : Type} (m : List (String × β)) (k : String)
    (v : β) : mapSet m k v ≠ [] := by
  cases m with
  | nil => simp [mapSet]
  | cons hd tl =>
    obtain ⟨k0, v0⟩ := hd
    by_cases h0 : k0 = k <;> simp [mapSet, h0]

theorem computeTFIDF_eq_nil (tf : List (String × ℚ))
    (idf : List (String × ℝ))
    (h : ∀ tv ∈ tf, ¬(0 < (tv.2 : ℝ) * ((mapGet idf tv.1).getD 0 : ℝ))) :
    computeTFIDF tf idf = [] := by
  unfold computeTFIDF
  induction tf with
  | nil => rfl
  | cons tv rest ih =>
    simp only [List.foldl_cons,
      if_neg (h tv (List.mem_cons_self _ _))]
    exact ih fun e he => h e (List.mem_cons_of_mem _ he)

theorem computeTFIDF_ne_nil (tf : List (String × ℚ))
    (idf : List (String × ℝ))
    (h : ∃ tv ∈ tf, 0 < (tv.2 : ℝ) * ((mapGet idf tv.1).getD 0 : ℝ)) :
    computeTFIDF tf idf ≠ [] := by
  unfold computeTFIDF
  suffices hgen : ∀ (l : List (String × ℚ)) (acc : List (String × ℝ)),
      (acc ≠ [] ∨ ∃ tv ∈ l,
        0 < (tv.2 : ℝ) * ((mapGet idf tv.1).getD 0 : ℝ)) →
      l.foldl (fun acc tv =>
        let idfValue := (mapGet idf tv.1).getD 0
        let score := (tv.2 : ℝ) * idfValue
        if 0 < score then mapSet acc tv.1 score else acc) acc ≠ [] by
    exact hgen tf [] (Or.inr h)
  intro l
  induction l with
  | nil =>
    intro acc hd
    rcases hd with hd | ⟨tv, htv, _⟩
    · simpa using hd
    · simp at htv
  | cons tv rest ih =>
    intro acc hd
    simp only [List.foldl_cons]
    rcases hd with hd | ⟨tw, htw, hpos⟩
    · refine ih _ (Or.inl ?_)
      by_cases hsc : 0 < (tv.2 : ℝ) * ((mapGet idf tv.1).getD 0 : ℝ)
      · simp only [if_pos hsc]
        exact mapSet_ne_nil _ _ _
      · simpa [hsc] using hd
    · rcases List.mem_cons.1 htw with heq | hmem
      · subst heq
        simp only [if_pos hpos]
        refine ih _ (Or.inl (mapSet_ne_nil _ _ _))
      · by_cases hsc : 0 < (tv.2 : ℝ) * ((mapGet idf tv.1).getD 0 : ℝ)
        · simp only [if_pos hsc]
          exact ih _ (Or.inl (mapSet_ne_nil _ _ _))
        · simp only [if_neg hsc]
          exact ih _ (Or.inr ⟨tw, hmem, hpos⟩)

/-- C2 counterexample: build three documents, remove `"c"` — the engine is
still ready and `"a"` still indexed, but the IDF table is stale.  Removing
`"a"` and re-adding the identical text recomputes the IDF over the current
two documents, and `"a"`'s TF-IDF vector comes out different from the one
it had before the removal. -/
theorem remove_upsert_roundtrip_counterexample :
    (runOps initState
      [Op.build [("a", "apple banana"), ("b", "banana"), ("c", "cherry")],
        Op.remove "c"]).indexReady = true ∧
    mapGet (runOps initState
      [Op.build [("a", "apple banana"), ("b", "banana"), ("c", "cherry")],
        Op.remove "c"]).tfMaps "a" =
      some (computeTF (tokenize "apple banana")) ∧
    mapGet (runOps initState
      [Op.build [("a", "apple banana"), ("b", "banana"), ("c", "cherry")],
        Op.remove "c", Op.remove "a",
        Op.upsert "a" "apple banana"]).tfidfVectors "a" ≠
    mapGet (runOps initState
      [Op.build [("a", "apple banana"), ("b", "banana"), ("c", "cherry")],
        Op.remove "c"]).tfidfVectors "a" := by
  refine ⟨rfl, rfl, ?_⟩
  have htok : tokenize "apple banana" = ["apple", "banana"] := by decide
  have htfA : computeTF (tokenize "apple banana") =
      [("apple", (1 : ℚ)/2), ("banana", (1 : ℚ)/2)] := by
    rw [htok]
    simp [computeTF, mapSet, mapGet]
  have h1 : mapGet (runOps initState
      [Op.build [("a", "apple banana"), ("b", "banana"), ("c", "cherry")],
        Op.remove "c"]).tfidfVectors "a" =
      some (computeTFIDF (computeTF (tokenize "apple banana"))
        (runOps initState
          [Op.build
            [("a", "apple banana"), ("b", "banana"), ("c", "cherry")],
            Op.remove "c"]).idf) := rfl
  have h2 : mapGet (runOps initState
      [Op.build [("a", "apple banana"), ("b", "banana"), ("c", "cherry")],
        Op.remove "c", Op.remove "a",
        Op.upsert "a" "apple banana"]).tfidfVectors "a" =
      some (computeTFIDF (computeTF (tokenize "apple banana"))
        (runOps initState
          [Op.build
            [("a", "apple banana"), ("b", "banana"), ("c", "cherry")],
            Op.remove "c", Op.remove "a",
            Op.upsert "a" "apple banana"]).idf) := rfl
  -- the stale pre-removal IDF: three documents, `"apple"` in one of them
  have eS1apple : mapGet (runOps initState
      [Op.build [("a", "apple banana"), ("b", "banana"), ("c", "cherry")],
        Op.remove "c"]).idf "apple" =
      some (Real.log ((3 : ℝ) / 2)) := by
    have h := mapGet_computeIDF
      (([("a", "apple banana"), ("b", "banana"), ("c", "cherry")].foldl
        (fun m d => mapSet m d.1 (computeTF (tokenize d.2))) []).map
          Prod.snd) "apple" (by decide) (by decide)
    rw [show (([("a", "apple banana"), ("b", "banana"),
        ("c", "cherry")].foldl
        (fun m d => mapSet m d.1 (computeTF (tokenize d.2))) []).map
          Prod.snd).countP
        (fun d => decide ("apple" ∈ d.map Prod.fst)) = 1 from by decide,
      show (([("a", "apple banana"), ("b", "banana"),
        ("c", "cherry")].foldl
        (fun m d => mapSet m d.1 (computeTF (tokenize d.2))) []).map
          Prod.snd).length = 3 from by decide] at h
    rw [if_neg (by norm_num)] at h
    rw [show mapGet (runOps initState
      [Op.build [("a", "apple banana"), ("b", "banana"), ("c", "cherry")],
        Op.remove "c"]).idf "apple" =
      mapGet (computeIDF
        (([("a", "apple banana"), ("b", "banana"), ("c", "cherry")].foldl
          (fun m d => mapSet m d.1 (computeTF (tokenize d.2))) []).map
            Prod.snd)) "apple" from rfl, h]
    norm_num
  -- the fresh post-roundtrip IDF: two documents
  have eS2apple : mapGet (runOps initState
      [Op.build [("a", "apple banana"), ("b", "banana"), ("c", "cherry")],
        Op.remove "c", Op.remove "a",
        Op.upsert "a" "apple banana"]).idf "apple" =
      some (Real.log ((2 : ℝ) / 2)) := by
    have h := mapGet_computeIDF
      ((runOps initState
        [Op.build
          [("a", "apple banana"), ("b", "banana"), ("c", "cherry")],
          Op.remove "c", Op.remove "a",
          Op.upsert "a" "apple banana"]).tfMaps.map Prod.snd) "apple"
      (by decide) (by decide)
    rw [show ((runOps initState
        [Op.build
          [("a", "apple banana"), ("b", "banana"), ("c", "cherry")],
          Op.remove "c", Op.remove "a",
          Op.upsert "a" "apple banana"]).tfMaps.map Prod.snd).countP
        (fun d => decide ("apple" ∈ d.map Prod.fst)) = 1 from by decide,
      show ((runOps initState
        [Op.build
          [("a", "apple banana"), ("b", "banana"), ("c", "cherry")],
          Op.remove "c", Op.remove "a",
          Op.upsert "a" "apple banana"]).tfMaps.map Prod.snd).length = 2
        from by decide] at h
    rw [if_neg (by norm_num)] at h
    rw [show mapGet (runOps initState
      [Op.build [("a", "apple banana"), ("b", "banana"), ("c", "cherry")],
        Op.remove "c", Op.remove "a",
        Op.upsert "a" "apple banana"]).idf "apple" =
      mapGet (computeIDF ((runOps initState
        [Op.build
          [("a", "apple banana"), ("b", "banana"), ("c", "cherry")],
          Op.remove "c", Op.remove "a",
          Op.upsert "a" "apple banana"]).tfMaps.map Prod.snd)) "apple"
      from rfl, h]
    norm_num
  have eS2banana : mapGet (runOps initState
      [Op.build [("a", "apple banana"), ("b", "banana"), ("c", "cherry")],
        Op.remove "c", Op.remove "a",
        Op.upsert "a" "apple banana"]).idf "banana" =
      some (Real.log ((2 : ℝ) / 3)) := by
    have h := mapGet_computeIDF
      ((runOps initState
        [Op.build
          [("a", "apple banana"), ("b", "banana"), ("c", "cherry")],
          Op.remove "c", Op.remove "a",
          Op.upsert "a" "apple banana"]).tfMaps.map Prod.snd) "banana"
      (by decide) (by decide)
    rw [show ((runOps initState
        [Op.build
          [("a", "apple banana"), ("b", "banana"), ("c", "cherry")],
          Op.remove "c", Op.remove "a",
          Op.upsert "a" "apple banana"]).tfMaps.map Prod.snd).countP
        (fun d => decide ("banana" ∈ d.map Prod.fst)) = 2 from by decide,
      show ((runOps initState
        [Op.build
          [("a", "apple banana"), ("b", "banana"), ("c", "cherry")],
          Op.remove "c", Op.remove "a",
          Op.upsert "a" "apple banana"]).tfMaps.map Prod.snd).length = 2
        from by decide] at h
    rw [if_neg (by norm_num)] at h
    rw [show mapGet (runOps initState
      [Op.build [("a", "apple banana"), ("b", "banana"), ("c", "cherry")],
        Op.remove "c", Op.remove "a",
        Op.upsert "a" "apple banana"]).idf "banana" =
      mapGet (computeIDF ((runOps initState
        [Op.build
          [("a", "apple banana"), ("b", "banana"), ("c", "cherry")],
          Op.remove "c", Op.remove "a",
          Op.upsert "a" "apple banana"]).tfMaps.map Prod.snd)) "banana"
      from rfl, h]
    norm_num
  -- the fresh table scores both terms non-positively: empty vector
  have hempty : computeTFIDF (computeTF (tokenize "apple banana"))
      (runOps initState
        [Op.build
          [("a", "apple banana"), ("b", "banana"), ("c", "cherry")],
          Op.remove "c", Op.remove "a",
          Op.upsert "a" "apple banana"]).idf = [] := by
    apply computeTFIDF_eq_nil
    intro tv htv
    rw [htfA] at htv
    rcases List.mem_cons.1 htv with heq | htv2
    · subst heq
      rw [show ((("apple", (1 : ℚ)/2) : String × ℚ).1) = "apple" from rfl,
        eS2apple]
      have : Real.log ((2 : ℝ) / 2) = 0 := by
        norm_num [Real.log_one]
      simp [this]
    · rcases List.mem_singleton.1 htv2 with heq
      subst heq
      rw [show ((("banana", (1 : ℚ)/2) : String × ℚ).1) = "banana"
        from rfl, eS2banana]
      have hneg : Real.log ((2 : ℝ) / 3) < 0 :=
        Real.log_neg (by norm_num) (by norm_num)
      simp only [Option.getD_some]
      intro hc
      nlinarith
  -- the stale table scores "apple" positively: non-empty vector
  have hnonempty : computeTFIDF (computeTF (tokenize "apple banana"))
      (runOps initState
        [Op.build
          [("a", "apple banana"), ("b", "banana"), ("c", "cherry")],
          Op.remove "c"]).idf ≠ [] := by
    apply computeTFIDF_ne_nil
    refine ⟨("apple", (1 : ℚ)/2), by rw [htfA]; simp, ?_⟩
    rw [show ((("apple", (1 : ℚ)/2) : String × ℚ).1) = "apple" from rfl,
      eS1apple]
    have hpos : 0 < Real.log ((3 : ℝ) / 2) :=
      Real.log_pos (by norm_num)
    simp only [Option.getD_some]
    push_cast
    nlinarith
  rw [h1, h2, hempty]
  intro hc
  injection hc with hc2
  exact hnonempty hc2.symm

/-! ## C4: the digest reason strings -/

theorem string_data_append (a b : String) : (a ++ b).data = a.data ++ b.data :=
  rfl

theorem findSimilar_mem_files (files : List FileMeta) (s : EngineState)
    (path : String) (topK : ℕ) :
    ∀ e ∈ findSimilar files s path topK, e.1 ∈ files := by
  intro e he
  by_cases hr : s.indexReady = false
  · simp [findSimilar, hr] at he
  · cases hv : mapGet s.tfidfVectors path with
    | none => simp [findSimilar, hr, hv] at he
    | some src =>
      have hres : findSimilar files s path topK =
          ((List.insertionSort (fun x y : String × ℝ => y.2 ≤ x.2)
            (s.tfidfVectors.filterMap (fun pv =>
              if pv.1 = path then none
              else
                if (0.01 : ℝ) < cosineSimilarity src pv.2 then
                  some (pv.1, cosineSimilarity src pv.2)
                else none))).take topK).filterMap (fun ps =>
            (files.find? (fun f => decide (f.path = ps.1))).map
              (fun f => (f, ps.2))) := by
        simp [findSimilar, hr, hv]
      rw [hres] at he
      rcases List.mem_filterMap.1 he with ⟨ps, _, hF⟩
      rcases Option.map_eq_some'.1 hF with ⟨f, hfind, hfe⟩
      subst hfe
      exact List.mem_of_find?_eq_some hfind

theorem innerFold_values (files : List FileMeta) (now minDaysOld : ℝ) :
    ∀ (sims : List (FileMeta × ℝ))
      (cm : List (String × (FileMeta × ℝ))),
      (∀ sf ∈ sims, sf.1 ∈ files) →
      (∀ kv ∈ cm, (kv.2.1 ∈ files ∧ kv.2.1.path = kv.1)) →
      ∀ kv ∈ sims.foldl
        (fun cm2 sf =>
          if daysSince now sf.1 < minDaysOld then cm2
          else
            match mapGet cm2 sf.1.path with
            | none => mapSet cm2 sf.1.path (sf.1, sf.2)
            | some existing =>
              if existing.2 < sf.2 then mapSet cm2 sf.1.path (sf.1, sf.2)
              else cm2)
        cm, (kv.2.1 ∈ files ∧ kv.2.1.path = kv.1) := by
  intro sims
  induction sims with
  | nil => intro cm _ hcm kv hkv; exact hcm kv hkv
  | cons sf rest ih =>
    intro cm hs hcm kv hkv
    simp only [List.foldl_cons] at hkv
    refine ih _ (fun x hx => hs x (List.mem_cons_of_mem _ hx))
      (fun x hx => ?_) kv hkv
    by_cases hday : daysSince now sf.1 < minDaysOld
    · rw [if_pos hday] at hx
      exact hcm x hx
    · rw [if_neg hday] at hx
      cases hg : mapGet cm sf.1.path with
      | none =>
        rw [hg] at hx
        dsimp only at hx
        rcases mem_mapSet hx with h1 | h1
        · subst h1
          exact ⟨hs sf (List.mem_cons_self _ _), rfl⟩
        · exact hcm x h1
      | some existing =>
        rw [hg] at hx
        dsimp only at hx
        by_cases hcmp : existing.2 < sf.2
        · rw [if_pos hcmp] at hx
          rcases mem_mapSet hx with h1 | h1
          · subst h1
            exact ⟨hs sf (List.mem_cons_self _ _), rfl⟩
          · exact hcm x h1
        · rw [if_neg hcmp] at hx
          exact hcm x hx

theorem candidateMap_values (now : ℝ) (files : List FileMeta)
    (engine : EngineState) (minDaysOld : ℝ) :
    ∀ (recents : List FileMeta)
      (cm : List (String × (FileMeta × ℝ))),
      (∀ kv ∈ cm, (kv.2.1 ∈ files ∧ kv.2.1.path = kv.1)) →
      ∀ kv ∈ recents.foldl
        (fun cm recentFile =>
          (findSimilar files engine recentFile.path 20).foldl
            (fun cm2 sf =>
              if daysSince now sf.1 < minDaysOld then cm2
              else
                match mapGet cm2 sf.1.path with
                | none => mapSet cm2 sf.1.path (sf.1, sf.2)
                | some existing =>
                  if existing.2 < sf.2 then
                    mapSet cm2 sf.1.path (sf.1, sf.2)
                  else cm2)
            cm)
        cm, (kv.2.1 ∈ files ∧ kv.2.1.path = kv.1) := by
  intro recents
  induction recents with
  | nil => intro cm hcm kv hkv; exact hcm kv hkv
  | cons rf rest ih =>
    intro cm hcm kv hkv
    simp only [List.foldl_cons] at hkv
    exact ih _ (fun x hx => innerFold_values files now minDaysOld
      (findSimilar files engine rf.path 20) cm
      (findSimilar_mem_files files engine rf.path 20) hcm x hx) kv hkv

/-- C4 (amended): every entry of the anchor-based digest path carries the
threshold-priority reason chain computed from its own file's scores; every
entry of the no-recent-anchors fallback instead carries only the
"unlinked" reason (boost > 0.5) or a "Not modified in N days" message —
the fallback never produces the "related to recent work" or
"written long ago" reasons the claim ascribes to it (see the
counterexample). -/
theorem digest_reason_spec (now : ℝ) (files : List FileMeta)
    (engine : EngineState) (minDaysOld : ℝ) (count : ℕ) :
    (∀ e ∈ getDailyDigest now files engine minDaysOld count,
      (getRecentlyModifiedFiles now files 3).isEmpty = false →
      ∃ f sim, f ∈ files ∧ e.path = f.path ∧
        e.score = compositeScore (relevanceScore sim)
          (timeDecayScore now f.mtime) (orphanBoost f.backlinks) ∧
        e.reason = anchorReason (relevanceScore sim)
          (timeDecayScore now f.mtime) (orphanBoost f.backlinks) ∧
        e.daysSinceModified = jsRound (daysSince now f)) ∧
    (∀ e ∈ getForgottenNotes now files minDaysOld count,
      ∃ f, f ∈ files ∧ e.path = f.path ∧
        e.score = compositeScore 0.3 (timeDecayScore now f.mtime)
          (orphanBoost f.backlinks) ∧
        e.reason = (if (0.5 : ℝ) < orphanBoost f.backlinks then
          "Unlinked note — consider connecting it"
        else "Not modified in " ++ toString (jsRound (daysSince now f)) ++
          " days") ∧
        e.reason ≠ "Related to your recent work" ∧
        e.reason ≠ "Written long ago, might be worth revisiting") := by
  constructor
  · intro e he hrec
    by_cases hready : engine.indexReady = false
    · simp [getDailyDigest, hready] at he
    · simp only [getDailyDigest, if_neg hready, hrec,
        Bool.false_eq_true, if_false] at he
      have he2 := (List.mem_insertionSort _).1 (List.mem_of_mem_take he)
      rcases List.mem_map.1 he2 with ⟨kv, hkv, hekv⟩
      have hval := candidateMap_values now files engine minDaysOld
        (getRecentlyModifiedFiles now files 3) [] (by simp) kv hkv
      subst hekv
      exact ⟨kv.2.1, kv.2.2, hval.1, rfl, rfl, rfl, rfl⟩
  · intro e he
    have he2 := (List.mem_insertionSort _).1
      (List.mem_of_mem_take
        (by simpa [getForgottenNotes] using he))
    rcases List.mem_filterMap.1 he2 with ⟨f, hf, hsome⟩
    by_cases hday : daysSince now f < minDaysOld
    · rw [if_pos hday] at hsome
      cases hsome
    · rw [if_neg hday] at hsome
      injection hsome with hsome
      subst hsome
      refine ⟨f, hf, rfl, rfl, rfl, ?_, ?_⟩
      · by_cases hb : (0.5 : ℝ) < orphanBoost f.backlinks
        · show (if (0.5 : ℝ) < orphanBoost f.backlinks then _ else _) ≠ _
          rw [if_pos hb]
          decide
        · show (if (0.5 : ℝ) < orphanBoost f.backlinks then _ else _) ≠ _
          rw [if_neg hb]
          intro h
          have hd := congrArg (fun s : String => s.data.head?) h
          simp only [string_data_append] at hd
          simp at hd
      · by_cases hb : (0.5 : ℝ) < orphanBoost f.backlinks
        · show (if (0.5 : ℝ) < orphanBoost f.backlinks then _ else _) ≠ _
          rw [if_pos hb]
          decide
        · show (if (0.5 : ℝ) < orphanBoost f.backlinks then _ else _) ≠ _
          rw [if_neg hb]
          intro h
          have hd := congrArg (fun s : String => s.data.head?) h
          simp only [string_data_append] at hd
          simp at hd

theorem daysSince_forty :
    daysSince 3456000000 (⟨"old.md", 0, 4⟩ : FileMeta) = 40 := by
  unfold daysSince
  norm_num

theorem jsRound_forty : jsRound (40 : ℝ) = 40 := by
  unfold jsRound
  rw [Int.floor_eq_iff]
  norm_num

theorem orphanBoost_four : orphanBoost 4 = 0 := by
  norm_num [orphanBoost]

theorem recentFiles_empty :
    getRecentlyModifiedFiles 3456000000 [⟨"old.md", 0, 4⟩] 3 = [] := by
  unfold getRecentlyModifiedFiles
  have hcond : decide ((3456000000 : ℝ) - 3 * 24 * 60 * 60 * 1000 <
      (⟨"old.md", 0, 4⟩ : FileMeta).mtime) = false := by
    rw [decide_eq_false_iff_not]
    norm_num
  simp only [List.filter_cons, List.filter_nil, hcond,
    Bool.false_eq_true, if_false]
  simp [List.insertionSort]

theorem forgottenNotes_eval :
    getForgottenNotes 3456000000 [⟨"old.md", 0, 4⟩] 7 5 =
      [⟨"old.md",
        compositeScore 0.3 (timeDecayScore 3456000000 0) (orphanBoost 4),
        "Not modified in 40 days", 40⟩] := by
  unfold getForgottenNotes
  simp only [List.filterMap_cons, List.filterMap_nil]
  rw [daysSince_forty]
  rw [if_neg (by norm_num : ¬(40 : ℝ) < 7)]
  rw [if_neg (by rw [orphanBoost_four]; norm_num : ¬(0.5 : ℝ) <
    orphanBoost (⟨"old.md", 0, 4⟩ : FileMeta).backlinks)]
  rw [jsRound_forty]
  rw [show toString (40 : ℤ) = "40" from by decide]
  rw [show ("Not modified in " ++ "40" ++ " days" : String) =
    "Not modified in 40 days" from by decide]
  simp [List.insertionSort, List.orderedInsert]

theorem timeDecay_forty :
    timeDecayScore 3456000000 0 = 1 - Real.exp (-2) := by
  unfold timeDecayScore
  norm_num

theorem timeDecay_forty_gt :
    (0.8 : ℝ) < timeDecayScore 3456000000 0 := by
  rw [timeDecay_forty]
  have h1 : (2.7182818283 : ℝ) < Real.exp 1 := Real.exp_one_gt_d9
  have h2 : Real.exp 2 = Real.exp 1 * Real.exp 1 := by
    rw [← Real.exp_add]; norm_num
  have h3 : (5 : ℝ) < Real.exp 2 := by nlinarith
  have h4 : Real.exp (-2) = (Real.exp 2)⁻¹ := by rw [← Real.exp_neg]
  have h5 : Real.exp (-2) < 0.2 := by
    rw [h4, show (0.2 : ℝ) = 5⁻¹ by norm_num]
    exact inv_strictAnti₀ (by norm_num) h3
  linarith

/-- C4 counterexample: a ready engine, one 40-day-old note with 4
backlinks and no recent anchors.  The claimed threshold chain at the
fallback's fixed relevance 0.3 would produce the "written long ago"
reason (staleness > 0.8), but the digest result carries
"Not modified in 40 days" instead. -/
theorem digest_reason_counterexample :
    anchorReason 0.3 (timeDecayScore 3456000000 0) (orphanBoost 4) =
      "Written long ago, might be worth revisiting" ∧
    getDailyDigest 3456000000 [⟨"old.md", 0, 4⟩] ⟨[], [], [], true⟩ 7 5 =
      [⟨"old.md",
        compositeScore 0.3 (timeDecayScore 3456000000 0) (orphanBoost 4),
        "Not modified in 40 days", 40⟩] := by
  constructor
  · unfold anchorReason
    rw [if_neg (by norm_num : ¬(0.3 : ℝ) < 0.3),
      if_pos timeDecay_forty_gt]
  · unfold getDailyDigest
    rw [if_neg (by simp), recentFiles_empty]
    simpa using forgottenNotes_eval

/-- C4 witness: the fallback entry of the concrete scenario never carries
the "written long ago" reason. -/
theorem digest_reason_spec_witness :
    (⟨"old.md",
      compositeScore 0.3 (timeDecayScore 3456000000 0) (orphanBoost 4),
      "Not modified in 40 days", 40⟩ : ResurfacedNote).reason ≠
      "Written long ago, might be worth revisiting" := by
  have h := (digest_reason_spec 3456000000 [⟨"old.md", 0, 4⟩]
    ⟨[], [], [], true⟩ 7 5).2
    ⟨"old.md",
      compositeScore 0.3 (timeDecayScore 3456000000 0) (orphanBoost 4),
      "Not modified in 40 days", 40⟩
    (by rw [forgottenNotes_eval]; exact List.mem_singleton.2 rfl)
  rcases h with ⟨f, _, _, _, _, _, hne⟩
  exact hne

/-! ## C9 (amended): tokenize is idempotent on fully stemmed,
stopword-free output -/

theorem keep_not_space {c : Char} (h : keepChar c = true) :
    isSpaceChar c = false := by
  simp only [keepChar, Bool.or_eq_true, Bool.and_eq_true,
    decide_eq_true_eq] at h
  simp only [isSpaceChar, Bool.or_eq_false_iff, decide_eq_false_iff_not]
  omega

theorem toLower_keep {c : Char} (h : keepChar c = true) :
    Char.toLower c = c := by
  simp only [keepChar, Bool.or_eq_true, Bool.and_eq_true,
    decide_eq_true_eq] at h
  unfold Char.toLower
  rw [if_neg]
  omega

theorem normChar_keep {c : Char} (h : keepChar c = true) :
    normChar c = c := by
  simp only [normChar, toLower_keep h, keep_not_space h, h,
    Bool.false_eq_true, if_false, if_true]

theorem normChar_space : normChar ' ' = ' ' := by decide

theorem normChar_not_space_keep {c : Char}
    (h : isSpaceChar (normChar c) = false) :
    keepChar (normChar c) = true := by
  simp only [normChar] at h ⊢
  by_cases h1 : isSpaceChar (Char.toLower c) = true
  · rw [if_pos h1] at h
    rw [h1] at h
    cases h
  · rw [Bool.not_eq_true] at h1
    rw [if_neg (by rw [h1]; simp)] at h ⊢
    by_cases h2 : keepChar (Char.toLower c) = true
    · rw [if_pos h2]
      exact h2
    · rw [Bool.not_eq_true] at h2
      rw [if_neg (by rw [h2]; simp)] at h
      rw [show isSpaceChar ' ' = true from by decide] at h
      cases h

theorem splitAux_sound :
    ∀ (cs acc : List Char), (∀ c ∈ acc, isSpaceChar c = false) →
      ∀ run ∈ splitAux cs acc, run ≠ [] ∧
        ∀ c ∈ run, isSpaceChar c = false ∧ (c ∈ cs ∨ c ∈ acc) := by
  intro cs
  induction cs with
  | nil =>
    intro acc hacc run hrun
    by_cases he : acc.isEmpty
    · simp [splitAux, he] at hrun
    · simp only [splitAux, he, Bool.false_eq_true, if_false,
        List.mem_singleton] at hrun
      subst hrun
      refine ⟨by simpa [List.isEmpty_iff] using he, fun c hc => ?_⟩
      rw [List.mem_reverse] at hc
      exact ⟨hacc c hc, Or.inr hc⟩
  | cons d ds ih =>
    intro acc hacc run hrun
    by_cases hd : isSpaceChar d = true
    · simp only [splitAux, hd, if_true] at hrun
      by_cases he : acc.isEmpty
      · rw [if_pos he] at hrun
        rcases ih [] (by simp) run hrun with ⟨hne, hall⟩
        refine ⟨hne, fun c hc => ?_⟩
        rcases hall c hc with ⟨hsp, hmem | hmem⟩
        · exact ⟨hsp, Or.inl (List.mem_cons_of_mem _ hmem)⟩
        · simp at hmem
      · rw [if_neg he] at hrun
        rcases List.mem_cons.1 hrun with hrun | hrun
        · subst hrun
          refine ⟨by simpa [List.isEmpty_iff] using he, fun c hc => ?_⟩
          rw [List.mem_reverse] at hc
          exact ⟨hacc c hc, Or.inr hc⟩
        · rcases ih [] (by simp) run hrun with ⟨hne, hall⟩
          refine ⟨hne, fun c hc => ?_⟩
          rcases hall c hc with ⟨hsp, hmem | hmem⟩
          · exact ⟨hsp, Or.inl (List.mem_cons_of_mem _ hmem)⟩
          · simp at hmem
    · rw [Bool.not_eq_true] at hd
      simp only [splitAux, hd, Bool.false_eq_true, if_false] at hrun
      rcases ih (d :: acc) (fun c hc => by
        rcases List.mem_cons.1 hc with hc | hc
        · subst hc; exact hd
        · exact hacc c hc) run hrun with ⟨hne, hall⟩
      refine ⟨hne, fun c hc => ?_⟩
      rcases hall c hc with ⟨hsp, hmem | hmem⟩
      · exact ⟨hsp, Or.inl (List.mem_cons_of_mem _ hmem)⟩
      · rcases List.mem_cons.1 hmem with hc2 | hc2
        · exact ⟨hsp, Or.inl (hc2 ▸ List.mem_cons_self _ _)⟩
        · exact ⟨hsp, Or.inr hc2⟩

theorem splitAux_append (w : List Char) :
    ∀ (acc cs : List Char), (∀ c ∈ w, isSpaceChar c = false) →
      splitAux (w ++ cs) acc = splitAux cs (w.reverse ++ acc) := by
  induction w with
  | nil => intro acc cs _; simp
  | cons d ds ih =>
    intro acc cs hw
    have hd : isSpaceChar d = false := hw d (List.mem_cons_self _ _)
    show splitAux (d :: (ds ++ cs)) acc = _
    simp only [splitAux, hd, Bool.false_eq_true, if_false]
    rw [show splitAux (ds ++ cs) (d :: acc) =
      splitAux cs (ds.reverse ++ (d :: acc)) from
      ih (d :: acc) cs (fun c hc => hw c (List.mem_cons_of_mem _ hc))]
    simp

theorem splitTokens_single (w : List Char) (hw : w ≠ [])
    (h : ∀ c ∈ w, isSpaceChar c = false) : splitTokens w = [w] := by
  unfold splitTokens
  rw [show w = w ++ [] from (List.append_nil w).symm, splitAux_append w [] [] h]
  simp only [splitAux, List.append_nil]
  rw [if_neg (by simpa [List.isEmpty_iff] using hw)]
  simp

theorem splitTokens_join :
    ∀ ts : List (List Char),
      (∀ t ∈ ts, t ≠ [] ∧ ∀ c ∈ t, isSpaceChar c = false) →
      splitTokens (joinL ts) = ts := by
  intro ts
  induction ts with
  | nil => intro _; rfl
  | cons t rest ih =>
    intro hts
    cases rest with
    | nil =>
      exact splitTokens_single t (hts t (List.mem_cons_self _ _)).1
        (hts t (List.mem_cons_self _ _)).2
    | cons t2 rest2 =>
      have hjoin : joinL (t :: t2 :: rest2) =
          t ++ ' ' :: joinL (t2 :: rest2) := rfl
      unfold splitTokens
      rw [hjoin, splitAux_append t []
        (' ' :: joinL (t2 :: rest2))
        (hts t (List.mem_cons_self _ _)).2,
        List.append_nil]
      have hne : t.reverse.isEmpty = false := by
        simp [List.isEmpty_iff, (hts t (List.mem_cons_self _ _)).1]
      simp only [splitAux, show isSpaceChar ' ' = true from by decide,
        if_true, hne, Bool.false_eq_true, if_false,
        List.reverse_reverse]
      rw [show splitAux (joinL (t2 :: rest2)) [] =
        splitTokens (joinL (t2 :: rest2)) from rfl]
      rw [ih fun x hx => hts x (List.mem_cons_of_mem _ hx)]

theorem joinSpace_data :
    ∀ ts : List String, (joinSpace ts).data = joinL (ts.map String.data) := by
  intro ts
  induction ts with
  | nil => rfl
  | cons t rest ih =>
    cases rest with
    | nil => rfl
    | cons t2 rest2 =>
      show (t ++ " " ++ joinSpace (t2 :: rest2)).data =
        t.data ++ ' ' :: joinL ((t2 :: rest2).map String.data)
      rw [string_data_append, string_data_append, ih,
        List.append_assoc]
      rfl

theorem joinL_mem {c : Char} :
    ∀ ls : List (List Char), c ∈ joinL ls →
      (∃ t ∈ ls, c ∈ t) ∨ c = ' ' := by
  intro ls
  induction ls with
  | nil => intro h; simp [joinL] at h
  | cons t rest ih =>
    intro h
    cases rest with
    | nil =>
      exact Or.inl ⟨t, List.mem_cons_self _ _, h⟩
    | cons t2 rest2 =>
      rw [show joinL (t :: t2 :: rest2) = t ++ ' ' :: joinL (t2 :: rest2)
        from rfl] at h
      rcases List.mem_append.1 h with h1 | h1
      · exact Or.inl ⟨t, List.mem_cons_self _ _, h1⟩
      · rcases List.mem_cons.1 h1 with h2 | h2
        · exact Or.inr h2
        · rcases ih h2 with ⟨t3, ht3, hc3⟩ | h3
          · exact Or.inl ⟨t3, List.mem_cons_of_mem _ ht3, hc3⟩
          · exact Or.inr h3

theorem stemL_sublist (w : List Char) : (stemL w).Sublist w := by
  unfold stemL
  by_cases h1 : w.length ≤ 4
  · rw [if_pos h1]
  · rw [if_neg h1]
    cases hfind : (suffixList.map String.data).find?
        (fun suf => suf.isSuffixOf w && decide (3 ≤ w.length - suf.length))
        with
    | some suf => exact List.take_sublist _ _
    | none =>
      by_cases h2 : (['s'].isSuffixOf w && !(['s', 's'].isSuffixOf w)
          && decide (3 < w.length)) = true
      · rw [if_pos h2]
        exact List.take_sublist _ _
      · rw [Bool.not_eq_true] at h2
        rw [h2]
        simp

theorem stemL_length (w : List Char) (h : 3 ≤ w.length) :
    3 ≤ (stemL w).length := by
  unfold stemL
  by_cases h1 : w.length ≤ 4
  · rw [if_pos h1]
    exact h
  · rw [if_neg h1]
    push_neg at h1
    cases hfind : (suffixList.map String.data).find?
        (fun suf => suf.isSuffixOf w && decide (3 ≤ w.length - suf.length))
        with
    | some suf =>
      have hp := List.find?_some hfind
      rw [Bool.and_eq_true, decide_eq_true_eq] at hp
      rw [List.length_take]
      omega
    | none =>
      by_cases h2 : (['s'].isSuffixOf w && !(['s', 's'].isSuffixOf w)
          && decide (3 < w.length)) = true
      · rw [if_pos h2, List.length_take]
        omega
      · rw [Bool.not_eq_true] at h2
        rw [h2]
        simp only [Bool.false_eq_true, if_false]
        exact h

theorem string_mk_data (s : String) : String.mk s.data = s := by
  cases s
  rfl

theorem tokenize_token_facts (text : String) :
    ∀ t ∈ tokenize text, t.data ≠ [] ∧ 3 ≤ t.length ∧
      ∀ c ∈ t.data, keepChar c = true := by
  intro t ht
  unfold tokenize at ht
  rcases List.mem_map.1 ht with ⟨rawTok, hrawTok, hstem⟩
  rcases List.mem_filter.1 hrawTok with ⟨hmem, hpred⟩
  rw [Bool.and_eq_true, decide_eq_true_eq] at hpred
  rcases List.mem_map.1 hmem with ⟨run, hrun, hmk⟩
  have hsound := splitAux_sound (text.data.map normChar) [] (by simp)
    run hrun
  have hkeep : ∀ c ∈ run, keepChar c = true := by
    intro c hc
    rcases (hsound.2 c hc) with ⟨hsp, hcm | hcm⟩
    · rcases List.mem_map.1 hcm with ⟨c0, _, hc0⟩
      subst hc0
      exact normChar_not_space_keep hsp
    · simp at hcm
  have hlen : 3 ≤ run.length := by
    have := hpred.1
    rw [← hmk] at this
    exact this
  subst hstem
  subst hmk
  have hsub := stemL_sublist run
  refine ⟨?_, ?_, ?_⟩
  · have := stemL_length run hlen
    intro hc
    rw [show (simpleStem (String.mk run)).data = stemL run from rfl] at hc
    rw [hc] at this
    simp at this
  · show 3 ≤ (stemL run).length
    exact stemL_length run hlen
  · intro c hc
    rw [show (simpleStem (String.mk run)).data = stemL run from rfl] at hc
    exact hkeep c (hsub.subset hc)

/-- C9 (amended): `tokenize` is idempotent on its own output provided that
output is a fixed point of the stemmer and stopword-free: if every
produced token stems to itself and is not a stopword, tokenizing the
space-joined output reproduces it exactly.  (The claim as stated — for
every input text — fails: stemming can produce a stopword, `"abouts" →
"about"`, and stems can stem again, `"helpfully" → "helpful" → "help"`;
see the counterexample.) -/
theorem tokenize_idempotent_amended (text : String)
    (hfix : ∀ t ∈ tokenize text, simpleStem t = t)
    (hstop : ∀ t ∈ tokenize text, STOP_WORDS.contains t = false) :
    tokenize (joinSpace (tokenize text)) = tokenize text := by
  have hfacts := tokenize_token_facts text
  have hmap : (joinSpace (tokenize text)).data.map normChar =
      (joinSpace (tokenize text)).data := by
    have : ∀ c ∈ (joinSpace (tokenize text)).data, normChar c = c := by
      intro c hc
      rw [joinSpace_data] at hc
      rcases joinL_mem _ hc with ⟨td, htd, hctd⟩ | hsp
      · rcases List.mem_map.1 htd with ⟨t, ht, htdata⟩
        subst htdata
        exact normChar_keep ((hfacts t ht).2.2 c hctd)
      · subst hsp
        exact normChar_space
    rw [List.map_congr_left this, List.map_id']
  have hsplit : splitTokens ((joinSpace (tokenize text)).data) =
      (tokenize text).map String.data := by
    rw [joinSpace_data]
    refine splitTokens_join _ fun td htd => ?_
    rcases List.mem_map.1 htd with ⟨t, ht, htdata⟩
    subst htdata
    exact ⟨(hfacts t ht).1, fun c hc =>
      keep_not_space ((hfacts t ht).2.2 c hc)⟩
  show (((splitTokens ((joinSpace (tokenize text)).data.map normChar)).map
      String.mk).filter
      (fun tok => decide (2 < tok.length) &&
        !(STOP_WORDS.contains tok))).map simpleStem = tokenize text
  rw [hmap, hsplit, List.map_map]
  rw [show (String.mk ∘ String.data) = id from funext fun s =>
    string_mk_data s, List.map_id]
  rw [List.filter_eq_self.2 fun t ht => by
    rw [Bool.and_eq_true, decide_eq_true_eq, Bool.not_eq_true']
    exact ⟨by have := (hfacts t ht).2.1; omega, hstop t ht⟩]
  rw [List.map_congr_left hfix, List.map_id']

/-- C9 witness: a two-token text whose tokens are stem-fixed
non-stopwords. -/
theorem tokenize_idempotent_amended_witness :
    tokenize (joinSpace (tokenize "apple banana")) =
      tokenize "apple banana" :=
  tokenize_idempotent_amended "apple banana" (by decide) (by decide)

end VaultRecall
